import Mathlib

/-!
ollama-k80: admission control core

A shallow embedding of the Go packages `gpu` (resource manager, cache manager,
retry counter), `gpu/scheduler` (priority queue, scheduler) and `gpu/recovery`
(out-of-memory strategy), followed by the properties established about them.

Conventions of the embedding:

* `uint64` values are natural numbers below `2 ^ 64`; every arithmetic
  operation of the source is written with its wrap-around made explicit.
* Go maps with value semantics in the claims (`map[K]*V` whose records are
  updated in place) are functions `K → Option V`.
* A method that mutates its receiver becomes a function returning the new
  receiver next to the Go return value.
-/

namespace Gpu

/-! ## Machine integers -/

/-- Number of values of a Go `uint64`. -/
def U64 : Nat := 2 ^ 64

/-- Go `a + b` on `uint64`. -/
def add64 (a b : Nat) : Nat := (a + b) % U64

/-- Go `a - b` on `uint64`: the difference wraps around below zero. -/
def sub64 (a b : Nat) : Nat := (a + U64 - b % U64) % U64

/-! ## Resource manager (`gpu/resources_manager.go`) -/

/-- Go `type ResourceType int`. -/
abbrev ResourceType := Int

def ResourceMemory : ResourceType := 0
def ResourceCompute : ResourceType := 1
def ResourceBandwidth : ResourceType := 2

/-- Go `ResourceLimits`; the reservation fraction is kept in percent. -/
structure ResourceLimits where
  MaxMemoryBytes : Nat
  MaxComputeThreads : Int
  MaxBandwidthMBps : Nat
  ReservationLimit : Nat
deriving DecidableEq, Repr

/-- Go `ResourceStats`; `LastGC` is a timestamp. -/
structure ResourceStats where
  Used : Nat
  Reserved : Nat
  Available : Nat
  Peak : Nat
  LastGC : Nat
deriving DecidableEq, Repr

/-- Errors returned by the resource manager. The two sentinel values are the
ones named in `Allocate`; `collaborator` stands for any error produced by a
device-specific reclamation step. -/
inductive Error where
  | ErrInvalidResourceType
  | ErrInsufficientResources
  | collaborator (code : Nat)
deriving DecidableEq, Repr

/-- The stats map `map[ResourceType]*ResourceStats`. -/
abbrev Resources := ResourceType → Option ResourceStats

/-- The tuning collaborator held by the resource manager: the batch-size
factors requested so far, in percent, most recent first. -/
structure AutoTuner where
  adjustments : List Nat
deriving DecidableEq, Repr

/-- Modelled from the spec: `AutoTuner.AdjustBatchSize` is not part of the
sources; it "requests a proportional reduction in the external batch-size
knob" and touches no resource statistics. The factor is given in percent. -/
def AutoTuner.AdjustBatchSize (t : AutoTuner) (percent : Nat) : AutoTuner :=
  { t with adjustments := percent :: t.adjustments }

/-- The device-specific reclamation steps `clearCache`, `compressMemory` and
`optimizeCompute`, whose bodies are not part of the sources. Each acts on the
statistics records in place and may fail; the statistics it leaves behind are
returned in either case. -/
structure Collaborators where
  clearCache : Resources → Resources × Option Error
  compressMemory : Resources → Resources × Option Error
  optimizeCompute : Resources → Resources × Option Error

/-- Go `ResourceManager`. `gcRuns` is a ghost counter of the calls of
`garbageCollect`; no operation reads it. -/
structure ResourceManager where
  resources : Resources
  limits : ResourceLimits
  autoTuner : Option AutoTuner
  gcRuns : Nat

/-- Go `AllocationRequest`; the field `Typ` is the Go field `Type`. -/
structure AllocationRequest where
  Typ : ResourceType
  Size : Nat
  Priority : Int
  Timeout : Nat
deriving DecidableEq, Repr

/-- Go `NewResourceManager`: only the memory statistics are initialised. -/
def NewResourceManager (maxVRAMBytes : Nat) (maxComputeThreads : Int)
    (maxBandwidthMBps : Nat) : ResourceManager :=
  let limits : ResourceLimits :=
    { MaxMemoryBytes := maxVRAMBytes % U64
      MaxComputeThreads := maxComputeThreads
      MaxBandwidthMBps := maxBandwidthMBps % U64
      ReservationLimit := 20 }
  { resources := fun t =>
      if t = ResourceMemory then
        some { Used := 0, Reserved := 0, Available := limits.MaxMemoryBytes, Peak := 0, LastGC := 0 }
      else none,
    limits := limits,
    autoTuner := none,
    gcRuns := 0 }

/-- In-place update of the record stored for `t`. -/
def Resources.set (r : Resources) (t : ResourceType) (s : ResourceStats) : Resources :=
  fun u => if u = t then some s else r u

/-- Modelled from the spec: `hasAvailableResource` is not part of the sources;
it "checks whether `used + request.size ≤ available`" for the requested type. -/
def ResourceManager.hasAvailableResource (rm : ResourceManager) (req : AllocationRequest) : Bool :=
  match rm.resources req.Typ with
  | none => false
  | some stats => decide (stats.Used + req.Size ≤ stats.Available)

/-- Go `collectMemory`: clear the cache, compress, then shrink the batch size
by 20% when a tuner is attached. -/
def ResourceManager.collectMemory (c : Collaborators) (rm : ResourceManager) :
    ResourceManager × Option Error :=
  let r1 := c.clearCache rm.resources
  let rm1 := { rm with resources := r1.1 }
  match r1.2 with
  | some err => (rm1, some err)
  | none =>
    let r2 := c.compressMemory rm1.resources
    let rm2 := { rm1 with resources := r2.1 }
    match r2.2 with
    | some err => (rm2, some err)
    | none => ({ rm2 with autoTuner := rm2.autoTuner.map fun t => t.AdjustBatchSize 80 }, none)

/-- Go `optimizeCompute`, a collaborator call. -/
def ResourceManager.optimizeCompute (c : Collaborators) (rm : ResourceManager) :
    ResourceManager × Option Error :=
  let r1 := c.optimizeCompute rm.resources
  ({ rm with resources := r1.1 }, r1.2)

/-- Go `garbageCollect`. -/
def ResourceManager.garbageCollect (c : Collaborators) (rm : ResourceManager)
    (resourceType : ResourceType) : ResourceManager × Option Error :=
  let rm0 := { rm with gcRuns := rm.gcRuns + 1 }
  match rm0.resources resourceType with
  | none => (rm0, some Error.ErrInvalidResourceType)
  | some _ =>
    if resourceType = ResourceMemory then rm0.collectMemory c
    else if resourceType = ResourceCompute then rm0.optimizeCompute c
    else (rm0, none)

/-- The last two statements of `Allocate`:
`stats.Used += req.Size; stats.Peak = max(stats.Peak, stats.Used)`. -/
def ResourceManager.reserve (rm : ResourceManager) (req : AllocationRequest) : ResourceManager :=
  match rm.resources req.Typ with
  | none => rm
  | some stats =>
    let used := add64 stats.Used req.Size
    { rm with resources :=
        rm.resources.set req.Typ { stats with Used := used, Peak := max stats.Peak used } }

/-- Go `Allocate`; the returned option is the Go `error` (`none` for `nil`). -/
def ResourceManager.Allocate (c : Collaborators) (rm : ResourceManager)
    (req : AllocationRequest) : ResourceManager × Option Error :=
  match rm.resources req.Typ with
  | none => (rm, some Error.ErrInvalidResourceType)
  | some _ =>
    if rm.hasAvailableResource req then (rm.reserve req, none)
    else
      let g := rm.garbageCollect c req.Typ
      match g.2 with
      | some err => (g.1, some err)
      | none =>
        if g.1.hasAvailableResource req then (g.1.reserve req, none)
        else (g.1, some Error.ErrInsufficientResources)

/-- Go `Release`: `stats.Used = max(0, stats.Used-req.Size)` on `uint64`. -/
def ResourceManager.Release (rm : ResourceManager) (req : AllocationRequest) : ResourceManager :=
  match rm.resources req.Typ with
  | none => rm
  | some stats =>
    { rm with resources :=
        rm.resources.set req.Typ { stats with Used := max 0 (sub64 stats.Used req.Size) } }

/-- Every field of a statistics record is a `uint64`. -/
def ResourceStats.InRange (s : ResourceStats) : Prop :=
  s.Used < U64 ∧ s.Reserved < U64 ∧ s.Available < U64 ∧ s.Peak < U64

/-- The invariant `used ≤ available` for every tracked resource type. -/
def Resources.WithinLimits (r : Resources) : Prop :=
  ∀ t s, r t = some s → s.Used ≤ s.Available

/-- Every record of a statistics map holds `uint64` values. -/
def Resources.InRange (r : Resources) : Prop :=
  ∀ t s, r t = some s → s.InRange

/-- The reclamation steps store `uint64` values. -/
structure Collaborators.InRange (c : Collaborators) : Prop where
  clearCache : ∀ r : Resources, r.InRange → (c.clearCache r).1.InRange
  compressMemory : ∀ r : Resources, r.InRange → (c.compressMemory r).1.InRange
  optimizeCompute : ∀ r : Resources, r.InRange → (c.optimizeCompute r).1.InRange

/-- The reclamation steps only reclaim: none of them leaves a resource type
with more in use than is available. -/
structure Collaborators.KeepsLimits (c : Collaborators) : Prop where
  clearCache : ∀ r : Resources, r.WithinLimits → (c.clearCache r).1.WithinLimits
  compressMemory : ∀ r : Resources, r.WithinLimits → (c.compressMemory r).1.WithinLimits
  optimizeCompute : ∀ r : Resources, r.WithinLimits → (c.optimizeCompute r).1.WithinLimits

/-- Reclamation steps that succeed and free nothing. -/
def idleCollaborators : Collaborators :=
  { clearCache := fun r => (r, none),
    compressMemory := fun r => (r, none),
    optimizeCompute := fun r => (r, none) }

/-- Reclamation whose cache-clearing step fails with the given code. -/
def failingCollaborators (code : Nat) : Collaborators :=
  { idleCollaborators with clearCache := fun r => (r, some (Error.collaborator code)) }

/-- Reclamation whose cache-clearing step frees `freed` bytes of memory (all
of it when less is in use). -/
def freeingCollaborators (freed : Nat) : Collaborators :=
  { idleCollaborators with
    clearCache := fun r =>
      (fun t =>
        if t = ResourceMemory then (r t).map fun s => { s with Used := s.Used - freed }
        else r t, none) }

/-- Reclamation whose cache-clearing step frees all memory in use and, while
doing so, leaves one more compute unit in use than is available. -/
def overcommittingCollaborators : Collaborators :=
  { idleCollaborators with
    clearCache := fun r =>
      (fun t =>
        if t = ResourceMemory then (r t).map fun s => { s with Used := 0 }
        else if t = ResourceCompute then (r t).map fun s => { s with Used := s.Available + 1 }
        else r t, none) }

/-- A concrete manager tracking memory only, used in examples. -/
def exampleManager (used available peak : Nat) : ResourceManager :=
  { resources := fun t =>
      if t = ResourceMemory then
        some { Used := used, Reserved := 0, Available := available, Peak := peak, LastGC := 0 }
      else none,
    limits := { MaxMemoryBytes := available, MaxComputeThreads := 0, MaxBandwidthMBps := 0,
                ReservationLimit := 20 },
    autoTuner := none,
    gcRuns := 0 }

/-- A concrete manager tracking memory and compute, used in examples. -/
def exampleManager2 (memUsed memAvailable compUsed compAvailable : Nat) : ResourceManager :=
  { resources := fun t =>
      if t = ResourceMemory then
        some { Used := memUsed, Reserved := 0, Available := memAvailable, Peak := memUsed,
               LastGC := 0 }
      else if t = ResourceCompute then
        some { Used := compUsed, Reserved := 0, Available := compAvailable, Peak := compUsed,
               LastGC := 0 }
      else none,
    limits := { MaxMemoryBytes := memAvailable, MaxComputeThreads := compAvailable,
                MaxBandwidthMBps := 0, ReservationLimit := 20 },
    autoTuner := none,
    gcRuns := 0 }

/-- A memory request of the given size. -/
def memoryRequest (size : Nat) : AllocationRequest :=
  { Typ := ResourceMemory, Size := size, Priority := 0, Timeout := 0 }

/-! ## Cache manager (`gpu/cahe_manager.go`) -/

/-- The opaque payload (`interface{}`) of a cache entry. -/
abbrev Payload := Nat

/-- Go `CacheEntry`. -/
structure CacheEntry where
  key : String
  sizeBytes : Nat
  data : Payload
deriving DecidableEq, Repr

/-- A node of `container/list`. `id` is the identity (address) of the node, so
that two nodes holding equal entries remain distinct; `Value` is never changed
after the node is created. -/
structure Element where
  id : Nat
  Value : CacheEntry
deriving DecidableEq, Repr

/-- `list.List.PushFront`, the node already allocated. -/
def PushFront (l : List Element) (e : Element) : List Element := e :: l

/-- `list.List.Back`. -/
def Back (l : List Element) : Option Element := l.getLast?

/-- `list.List.Remove`: unlink the node. -/
def Remove (l : List Element) (e : Element) : List Element := l.erase e

/-- `list.List.MoveToFront`: nothing happens when the node is not in the list. -/
def MoveToFront (l : List Element) (e : Element) : List Element :=
  if e ∈ l then e :: l.erase e else l

/-- Go `CacheManager`. `cache` is the recency list, most recently used first;
`lookup` is `map[string]*list.Element`; `nextId` is the identity the next
allocated node receives. -/
structure CacheManager where
  maxSizeBytes : Nat
  currentSize : Nat
  cache : List Element
  lookup : String → Option Element
  nextId : Nat

/-- An empty cache of the given capacity in bytes. -/
def CacheManager.empty (maxSizeBytes : Nat) : CacheManager :=
  { maxSizeBytes := maxSizeBytes, currentSize := 0, cache := [], lookup := fun _ => none,
    nextId := 0 }

/-- Go `NewCacheManager`:
`maxSizeBytes: uint64(config.Caching.MaxCacheSizeGB) * 1024 * 1024 * 1024`. -/
def NewCacheManager (maxCacheSizeGB : Nat) : CacheManager :=
  CacheManager.empty ((maxCacheSizeGB % U64) * (1024 * 1024 * 1024) % U64)

/-- Go `removeOldest`. -/
def CacheManager.removeOldest (cm : CacheManager) : CacheManager × Bool :=
  match Back cm.cache with
  | some element =>
    let entry := element.Value
    ({ cm with
        cache := Remove cm.cache element,
        lookup := fun k => if k = entry.key then none else cm.lookup k,
        currentSize := sub64 cm.currentSize entry.sizeBytes }, true)
  | none => (cm, false)

/-- The eviction loop of `Add`,
`for cm.currentSize+sizeBytes > cm.maxSizeBytes { if !cm.removeOldest() { return false } }`,
run for at most `fuel` iterations. The Boolean is `false` when the loop leaves
`Add` through `return false`. Every iteration that continues removes one node,
so `cache.length + 1` iterations always suffice (`evictLoop_fuel`). -/
def CacheManager.evictLoop (sizeBytes : Nat) : Nat → CacheManager → CacheManager × Bool
  | 0, cm => (cm, false)
  | fuel + 1, cm =>
    if add64 cm.currentSize sizeBytes > cm.maxSizeBytes then
      let r := cm.removeOldest
      if r.2 then CacheManager.evictLoop sizeBytes fuel r.1 else (r.1, false)
    else (cm, true)

/-- Go `Add`. -/
def CacheManager.Add (cm : CacheManager) (key : String) (data : Payload) (sizeBytes : Nat) :
    CacheManager × Bool :=
  if sizeBytes > cm.maxSizeBytes then (cm, false)
  else
    let r := CacheManager.evictLoop sizeBytes (cm.cache.length + 1) cm
    if r.2 then
      let cm1 := r.1
      let entry : CacheEntry := { key := key, sizeBytes := sizeBytes, data := data }
      let element : Element := { id := cm1.nextId, Value := entry }
      ({ cm1 with
          cache := PushFront cm1.cache element,
          lookup := fun k => if k = key then some element else cm1.lookup k,
          currentSize := add64 cm1.currentSize sizeBytes,
          nextId := cm1.nextId + 1 }, true)
    else (r.1, false)

/-- Go `Get`; a miss returns `(nil, false)`, written `(none, false)`. -/
def CacheManager.Get (cm : CacheManager) (key : String) : CacheManager × Option Payload × Bool :=
  match cm.lookup key with
  | some element => ({ cm with cache := MoveToFront cm.cache element }, some element.Value.data, true)
  | none => (cm, none, false)

/-- A call of the public interface of the cache. -/
inductive CacheOp where
  | add (key : String) (data : Payload) (sizeBytes : Nat)
  | get (key : String)
deriving DecidableEq, Repr

/-- The state after one call. -/
def CacheManager.step (cm : CacheManager) : CacheOp → CacheManager
  | CacheOp.add key data sizeBytes => (cm.Add key data sizeBytes).1
  | CacheOp.get key => (cm.Get key).1

/-- The state after a sequence of calls. -/
def CacheManager.run (cm : CacheManager) (ops : List CacheOp) : CacheManager :=
  ops.foldl CacheManager.step cm

/-- Sum of the sizes of the entries held in a recency list. -/
def totalSize (l : List Element) : Nat := (l.map fun e => e.Value.sizeBytes).sum

/-- The lookup map points into the recency list. -/
def CacheManager.Consistent (cm : CacheManager) : Prop :=
  ∀ k e, cm.lookup k = some e → e ∈ cm.cache

/-- The linkage invariant of the states built through `Add` and `Get`, whatever
the capacity: nodes are pairwise distinct and older than `nextId`, and the
lookup map points into the list at a node carrying the key. -/
structure CacheManager.Linked (cm : CacheManager) : Prop where
  nodup : (cm.cache.map fun e => e.id).Nodup
  fresh : ∀ e ∈ cm.cache, e.id < cm.nextId
  points : ∀ k e, cm.lookup k = some e → e ∈ cm.cache ∧ e.Value.key = k

/-- The representation invariant of the states built through `Add` and `Get`
when no size computation can wrap around: nodes are pairwise distinct and
older than `nextId`, the lookup map points into the list at a node carrying
the key, and `currentSize` is the exact total, within capacity. -/
structure CacheManager.WF (cm : CacheManager) : Prop where
  nodup : (cm.cache.map fun e => e.id).Nodup
  fresh : ∀ e ∈ cm.cache, e.id < cm.nextId
  points : ∀ k e, cm.lookup k = some e → e ∈ cm.cache ∧ e.Value.key = k
  size_eq : cm.currentSize = totalSize cm.cache
  size_le : cm.currentSize ≤ cm.maxSizeBytes

/-- Lookup map and recency list agree: besides the linkage invariant, every
node of the list is the one the map holds for its key. Then no two nodes carry
the same key, and a key is in the map exactly when a node carries it. -/
def CacheManager.Exact (cm : CacheManager) : Prop :=
  cm.Linked ∧ ∀ e ∈ cm.cache, cm.lookup e.Value.key = some e

/-- No `Add` of the sequence, run from `cm`, reuses a key that the lookup map
holds at the time of the call. -/
def FreshKeys : CacheManager → List CacheOp → Prop
  | _, [] => True
  | cm, CacheOp.add key data sizeBytes :: ops =>
    cm.lookup key = none ∧ FreshKeys (cm.step (CacheOp.add key data sizeBytes)) ops
  | cm, CacheOp.get key :: ops => FreshKeys (cm.step (CacheOp.get key)) ops

/-! ## Scheduler (`gpu/scheduler/scheduler.go`) -/

namespace scheduler

/-- Go `type Priority int`. -/
abbrev Priority := Int

def PriorityLow : Priority := 0
def PriorityNormal : Priority := 1
def PriorityHigh : Priority := 2
def PriorityCritical : Priority := 3

/-- Go `TaskStatus`. -/
inductive TaskStatus where
  | TaskPending
  | TaskRunning
  | TaskCompleted
  | TaskFailed
deriving DecidableEq, Repr

/-- Go `ResourceRequest` of the scheduler package; `MaxDuration` in nanoseconds. -/
structure ResourceRequest where
  MemoryBytes : Nat
  ComputeUnits : Int
  MaxDuration : Int
deriving DecidableEq, Repr

/-- Go `Task`. Times are timestamps; the handler, a Go closure the scheduler
only passes on, is represented by a tag. -/
structure Task where
  ID : String
  Priority : Priority
  Status : TaskStatus
  Resources : ResourceRequest
  StartTime : Nat
  Deadline : Nat
  Handler : Nat
deriving DecidableEq, Repr

/-- Go `type PriorityQueue []*Task`. -/
abbrev PriorityQueue := List Task

/-- Go `PriorityQueue.Len`. -/
def PriorityQueue.Len (pq : PriorityQueue) : Nat := pq.length

/-- Go `PriorityQueue.Less`: `pq[i].Priority > pq[j].Priority`. The heap
functions only call it with indices inside the slice. -/
def PriorityQueue.Less (pq : PriorityQueue) (i j : Nat) : Bool :=
  match pq[i]?, pq[j]? with
  | some a, some b => decide (a.Priority > b.Priority)
  | _, _ => false

/-- Go `PriorityQueue.Swap`: `pq[i], pq[j] = pq[j], pq[i]`. -/
def PriorityQueue.Swap (pq : PriorityQueue) (i j : Nat) : PriorityQueue :=
  match pq[i]?, pq[j]? with
  | some a, some b => (pq.set i b).set j a
  | _, _ => pq

/-- Go `PriorityQueue.Push`: append to the slice. -/
def PriorityQueue.Push (pq : PriorityQueue) (x : Task) : PriorityQueue := pq ++ [x]

/-- Go `PriorityQueue.Pop`: cut off and return the last element. -/
def PriorityQueue.Pop (pq : PriorityQueue) : Option Task × PriorityQueue :=
  (pq.getLast?, pq.dropLast)

/-! ### `container/heap` of the Go standard library, on `PriorityQueue` -/

namespace heap

/-- The loop of `heap.up`, run for at most `fuel` iterations:
`i := (j - 1) / 2; if i == j || !h.Less(j, i) { break }; h.Swap(i, j); j = i`.
The index decreases at every iteration, so `j + 1` iterations suffice
(`up_fuel`). -/
def up : Nat → PriorityQueue → Nat → PriorityQueue
  | 0, h, _ => h
  | fuel + 1, h, j =>
    let i := (j - 1) / 2
    if i = j ∨ !h.Less j i then h
    else up fuel (h.Swap i j) i

/-- The loop of `heap.down` (without its Boolean result, which `heap.Pop` and
`heap.Push` do not use), run for at most `fuel` iterations:
the larger-priority child `j` of `i` among the first `n` elements is swapped
with `i` while `h.Less(j, i)`. The index increases at every iteration, so `n`
iterations suffice (`down_fuel`). -/
def down : Nat → PriorityQueue → Nat → Nat → PriorityQueue
  | 0, h, _, _ => h
  | fuel + 1, h, i, n =>
    let j1 := 2 * i + 1
    if j1 ≥ n then h
    else
      let j := if j1 + 1 < n ∧ h.Less (j1 + 1) j1 then j1 + 1 else j1
      if !h.Less j i then h
      else down fuel (h.Swap i j) j n

/-- Go `heap.Push`: `h.Push(x); up(h, h.Len()-1)`. -/
def Push (h : PriorityQueue) (x : Task) : PriorityQueue :=
  up (h.Push x).Len (h.Push x) ((h.Push x).Len - 1)

/-- Go `heap.Pop`: `n := h.Len() - 1; h.Swap(0, n); down(h, 0, n); return h.Pop()`.
On an empty queue Go panics; the model returns no task. -/
def Pop (h : PriorityQueue) : Option Task × PriorityQueue :=
  let n := h.Len - 1
  (down h.Len (h.Swap 0 n) 0 n).Pop

end heap

/-- Go `SchedulerMetrics`; the average wait time in nanoseconds. -/
structure SchedulerMetrics where
  QueueLength : Int
  RunningTasks : Int
  CompletedTasks : Int
  FailedTasks : Int
  AverageWaitTime : Int
deriving DecidableEq, Repr

/-- Go `map[string]*Task`: at most one pair for each key. -/
abbrev TaskMap := List (String × Task)

/-- Go `m[k] = v`. -/
def TaskMap.insert (m : TaskMap) (k : String) (v : Task) : TaskMap :=
  if m.any (fun p => p.1 == k) then m.map (fun p => if p.1 = k then (k, v) else p)
  else m ++ [(k, v)]

/-- Go `m[k]`. -/
def TaskMap.find (m : TaskMap) (k : String) : Option Task :=
  (m.find? (fun p => p.1 == k)).map (fun p => p.2)

/-- Go `Scheduler`. The resource manager of the scheduler package is not part
of the sources; the scheduler uses it through `CanAllocate` only, which is
the parameter `canAllocate` of the operations below. `started` is a ghost
log: the tasks handed to `startTask`, in order. -/
structure Scheduler where
  queue : PriorityQueue
  runningTasks : TaskMap
  maxConcurrent : Int
  metrics : SchedulerMetrics
  started : List Task
deriving DecidableEq, Repr

/-- Go `NewScheduler`; `heap.Init` on the empty queue does nothing. -/
def NewScheduler (maxConcurrent : Int) : Scheduler :=
  { queue := [], runningTasks := [], maxConcurrent := maxConcurrent,
    metrics := { QueueLength := 0, RunningTasks := 0, CompletedTasks := 0, FailedTasks := 0,
                 AverageWaitTime := 0 },
    started := [] }

/-- Go `startTask`, without the goroutine it launches: the task is recorded
in the running set and counted; the result is always `nil`. The body of the
goroutine runs the handler concurrently and is outside the model. -/
def Scheduler.startTask (s : Scheduler) (task : Task) : Scheduler × Option Error :=
  ({ s with
      runningTasks := s.runningTasks.insert task.ID task,
      metrics := { s.metrics with RunningTasks := s.metrics.RunningTasks + 1 },
      started := s.started ++ [task] }, none)

/-- The loop of `trySchedule`, run for at most `fuel` iterations. Every
iteration that continues takes one task off the queue, so `queue.length + 1`
iterations suffice (`tryScheduleLoop_fuel`). -/
def Scheduler.tryScheduleLoop (canAllocate : ResourceRequest → Bool) :
    Nat → Scheduler → Scheduler × Option Error
  | 0, s => (s, none)
  | fuel + 1, s =>
    if s.queue.Len > 0 ∧ (s.runningTasks.length : Int) < s.maxConcurrent then
      match heap.Pop s.queue with
      | (none, _) => (s, none)
      | (some task, q) =>
        if !canAllocate task.Resources then ({ s with queue := heap.Push q task }, none)
        else
          let r := Scheduler.startTask { s with queue := q } task
          match r.2 with
          | some err => ({ r.1 with queue := heap.Push r.1.queue task }, some err)
          | none => Scheduler.tryScheduleLoop canAllocate fuel r.1
    else (s, none)

/-- Go `trySchedule`. -/
def Scheduler.trySchedule (canAllocate : ResourceRequest → Bool) (s : Scheduler) :
    Scheduler × Option Error :=
  Scheduler.tryScheduleLoop canAllocate (s.queue.length + 1) s

/-- Go `Submit`. -/
def Scheduler.Submit (canAllocate : ResourceRequest → Bool) (s : Scheduler) (task : Task) :
    Scheduler × Option Error :=
  Scheduler.trySchedule canAllocate
    { s with
      queue := heap.Push s.queue task,
      metrics := { s.metrics with QueueLength := s.metrics.QueueLength + 1 } }

/-- The state after submitting the tasks one after the other. -/
def Scheduler.submitAll (canAllocate : ResourceRequest → Bool) (s : Scheduler)
    (tasks : List Task) : Scheduler :=
  tasks.foldl (fun st t => (Scheduler.Submit canAllocate st t).1) s

/-- A resource manager that admits every request. -/
def alwaysAdmit : ResourceRequest → Bool := fun _ => true

/-- Priority of the element at index `i` (`0` outside the slice). -/
def prioAt (h : PriorityQueue) (i : Nat) : Int :=
  match h[i]? with
  | some t => t.Priority
  | none => 0

/-- The first `n` elements form a max-heap: no element among them has a
higher priority than its parent. -/
def HeapUpTo (h : PriorityQueue) (n : Nat) : Prop :=
  ∀ k, 0 < k → k < n → prioAt h k ≤ prioAt h ((k - 1) / 2)

/-- The whole slice is a max-heap. -/
def HeapOrdered (h : PriorityQueue) : Prop := HeapUpTo h h.length

/-- The heap property among the first `n` elements, except that the element
at `i` may be smaller than its children; the children of `i` are then bounded
by the parent of `i`. -/
def DownInv (h : PriorityQueue) (i n : Nat) : Prop :=
  (∀ k, 0 < k → k < n → (k - 1) / 2 ≠ i → prioAt h k ≤ prioAt h ((k - 1) / 2)) ∧
  (0 < i → ∀ k, 0 < k → k < n → (k - 1) / 2 = i → prioAt h k ≤ prioAt h ((i - 1) / 2))

/-- The heap property, except that the element at `j` may be larger than its
parent; the children of `j` are then bounded by the parent of `j`. -/
def UpInv (h : PriorityQueue) (j : Nat) : Prop :=
  (∀ k, 0 < k → k < h.length → k ≠ j → prioAt h k ≤ prioAt h ((k - 1) / 2)) ∧
  (0 < j → ∀ k, 0 < k → k < h.length → (k - 1) / 2 = j → prioAt h k ≤ prioAt h ((j - 1) / 2))

/-- A call of `heap.Push` or `heap.Pop` on a priority queue. -/
inductive HeapOp where
  | push (task : Task)
  | pop
deriving DecidableEq, Repr

/-- The queue after one call (the task returned by `heap.Pop` is dropped). -/
def HeapOp.apply (h : PriorityQueue) : HeapOp → PriorityQueue
  | HeapOp.push task => heap.Push h task
  | HeapOp.pop => (heap.Pop h).2

/-- The queue built from `h` by a sequence of calls. -/
def heapRun (h : PriorityQueue) (ops : List HeapOp) : PriorityQueue :=
  ops.foldl HeapOp.apply h

/-- A pending task with the given identifier and priority, used in examples. -/
def mkTask (id : String) (priority : Priority) : Task :=
  { ID := id, Priority := priority, Status := TaskStatus.TaskPending,
    Resources := { MemoryBytes := 0, ComputeUnits := 0, MaxDuration := 0 },
    StartTime := 0, Deadline := 0, Handler := 0 }

end scheduler

/-! ## Retry counter (`gpu/detector.go`) -/

/-- Number of values of a Go `int` (64 bits). -/
def IntRange : Int := 2 ^ 64

/-- Go arithmetic on `int`: the result wraps around into `[-2^63, 2^63)`. -/
def wrapInt (x : Int) : Int := (x + 2 ^ 63) % IntRange - 2 ^ 63

/-- Go `ErrorRecovery`. Errors are represented by their message; `RetryDelay`
is in nanoseconds. -/
structure ErrorRecovery where
  MaxRetries : Int
  CurrentRetry : Int
  RetryDelay : Int
  LastError : Option String
  FallbackToCPU : Bool
deriving DecidableEq, Repr

/-- Go `NewErrorRecovery`, from the three configuration values it reads. -/
def NewErrorRecovery (maxRetries : Int) (retryDelayMS : Int) (fallbackToCPU : Bool) :
    ErrorRecovery :=
  { MaxRetries := maxRetries, CurrentRetry := 0,
    RetryDelay := wrapInt (wrapInt retryDelayMS * 1000000),
    LastError := none, FallbackToCPU := fallbackToCPU }

/-- Go `switchToCPU`: a placeholder that returns `nil`. -/
def ErrorRecovery.switchToCPU (er : ErrorRecovery) : ErrorRecovery × Option String :=
  (er, none)

/-- Go `HandleError`; the returned option is the Go `error` (`none` for
`nil`). `time.Sleep` has no effect on the state. -/
def ErrorRecovery.HandleError (er : ErrorRecovery) (err : String) :
    ErrorRecovery × Option String :=
  let er1 := { er with LastError := some err }
  if er1.CurrentRetry ≥ er1.MaxRetries then
    if er1.FallbackToCPU then er1.switchToCPU
    else (er1, some ("max retries exceeded: " ++ err))
  else ({ er1 with CurrentRetry := wrapInt (er1.CurrentRetry + 1) }, none)

/-- The state after handling the errors one after the other. -/
def ErrorRecovery.handleAll (er : ErrorRecovery) (errs : List String) : ErrorRecovery :=
  errs.foldl (fun st e => (st.HandleError e).1) er

/-! ## Recovery strategies (`gpu/recovery/recovery.go`) -/

namespace recovery

/-- Go `type FailureType int`. -/
abbrev FailureType := Int

def FailureOOM : FailureType := 0
def FailureHardware : FailureType := 1
def FailureDriver : FailureType := 2
def FailureCompute : FailureType := 3

/-- Go `Failure`; the underlying error is represented by its message, the
free-form context by its keys. -/
structure Failure where
  Typ : FailureType
  Error : Option String
  Timestamp : Nat
  Device : String
  Context : List String
deriving DecidableEq, Repr

/-- A call made by a recovery strategy on one of its collaborators. The
batch-size factor is in percent (`AdjustBatchSize(0.7)` is `AdjustBatchSize 70`). -/
inductive Call where
  | ClearCache
  | AdjustBatchSize (percent : Nat)
  | CompressMemory
deriving DecidableEq, Repr

/-- How a call of `Recover` ends: it returns its `error` (`none` for `nil`),
or it panics. -/
inductive Outcome where
  | returned (err : Option Error)
  | panicked
deriving DecidableEq, Repr

/-- Modelled from the spec: the tuner of the recovery package is not part of
the sources. `AdjustBatchSize` "reduces the external batch-size knob" of the
tuner it is called on; the field gives what the call returns after the calls
made so far (`none` when it succeeds or has no result). -/
structure AutoTuner where
  AdjustBatchSize : List Call → Option Error

/-- Go `OOMRecoveryStrategy`. The resource manager of the recovery package is
not part of the sources: `ClearCache` and `CompressMemory` are given by the
error each returns after the calls made so far. `autoTuner` is the pointer
field of the same name, `none` for `nil`. -/
structure OOMRecoveryStrategy where
  ClearCache : List Call → Option Error
  CompressMemory : List Call → Option Error
  autoTuner : Option AutoTuner

/-- Go `OOMRecoveryStrategy.CanHandle`. -/
def OOMRecoveryStrategy.CanHandle (_s : OOMRecoveryStrategy) (failure : Failure) : Bool :=
  decide (failure.Typ = FailureOOM)

/-- Go `OOMRecoveryStrategy.Recover`. `calls` is the log of the collaborator
calls made before; the result is the log afterwards and the way the call ends.
`s.autoTuner.AdjustBatchSize(0.7)` is a statement: what the tuner returns is
dropped. Unlike `collectMemory` of the resource manager, `Recover` does not
test the tuner for `nil`; on a `nil` tuner the call dereferences `nil` and
panics. -/
def OOMRecoveryStrategy.Recover (s : OOMRecoveryStrategy) (calls : List Call)
    (_failure : Failure) : List Call × Outcome :=
  let calls1 := calls ++ [Call.ClearCache]
  match s.ClearCache calls with
  | some err => (calls1, Outcome.returned (some err))
  | none =>
    match s.autoTuner with
    | none => (calls1, Outcome.panicked)
    | some _tuner =>
      let calls2 := calls1 ++ [Call.AdjustBatchSize 70]
      (calls2 ++ [Call.CompressMemory], Outcome.returned (s.CompressMemory calls2))

/-- Every step of the OOM strategy succeeds when run after `calls`. -/
def OOMRecoveryStrategy.AllStepsSucceed (s : OOMRecoveryStrategy) (tuner : AutoTuner)
    (calls : List Call) : Prop :=
  s.ClearCache calls = none ∧
    tuner.AdjustBatchSize (calls ++ [Call.ClearCache]) = none ∧
    s.CompressMemory (calls ++ [Call.ClearCache, Call.AdjustBatchSize 70]) = none

/-- A tuner whose `AdjustBatchSize` always succeeds. -/
def quietTuner : AutoTuner := { AdjustBatchSize := fun _ => none }

/-- A tuner whose `AdjustBatchSize` always fails with the given code. -/
def failingTuner (code : Nat) : AutoTuner :=
  { AdjustBatchSize := fun _ => some (Error.collaborator code) }

/-- Go `OOMRecoveryStrategy.Priority`. -/
def OOMRecoveryStrategy.Priority (_s : OOMRecoveryStrategy) : Int := 100

/-- An out-of-memory failure, used in examples. -/
def oomFailure : Failure :=
  { Typ := FailureOOM, Error := some "out of memory", Timestamp := 0, Device := "0",
    Context := [] }

end recovery

end Gpu

/-! ## Machine integers without wrap-around -/

namespace Gpu

theorem add64_eq {a b : Nat} (h : a + b < U64) : add64 a b = a + b :=
  Nat.mod_eq_of_lt h

theorem sub64_eq {a b : Nat} (ha : a < U64) (hb : b ≤ a) : sub64 a b = a - b := by
  unfold sub64
  rw [Nat.mod_eq_of_lt (lt_of_le_of_lt hb ha)]
  have h : a + U64 - b = (a - b) + U64 := by omega
  rw [h, Nat.add_mod_right, Nat.mod_eq_of_lt]
  omega

theorem add64_le (a b : Nat) : add64 a b ≤ a + b :=
  Nat.mod_le _ _

end Gpu

/-! ## Properties of the resource manager -/

namespace Gpu

/-- C1 (Release floor): with `used = 5`, releasing a request of size `10`
leaves `used = 2 ^ 64 - 5` instead of `0`, and a second release of the same
request leaves `2 ^ 64 - 15`: both are larger than the value before the first
release. -/
theorem Release_wraps_below_zero :
    ((exampleManager 5 100 5).Release (memoryRequest 10)).resources ResourceMemory
      = some { Used := 18446744073709551611, Reserved := 0, Available := 100, Peak := 5, LastGC := 0 }
    ∧ (((exampleManager 5 100 5).Release (memoryRequest 10)).Release (memoryRequest 10)).resources
        ResourceMemory
      = some { Used := 18446744073709551601, Reserved := 0, Available := 100, Peak := 5, LastGC := 0 } := by
  constructor <;> decide

/-- What `Release` stores in `used` for a tracked type: the difference when
the request is no larger than `used`, and the wrapped difference
`used + 2 ^ 64 - size`, which is not `0`, otherwise. -/
theorem Release_used (rm : ResourceManager) (req : AllocationRequest) (stats : ResourceStats)
    (hs : rm.resources req.Typ = some stats) (hu : stats.Used < U64) (hsz : req.Size < U64) :
    (rm.Release req).resources req.Typ
      = some { stats with
          Used := if req.Size ≤ stats.Used then stats.Used - req.Size
                  else stats.Used + U64 - req.Size } := by
  unfold ResourceManager.Release
  rw [hs]
  simp only [Resources.set, if_true]
  congr 2
  rw [Nat.zero_max]
  unfold sub64
  rw [Nat.mod_eq_of_lt hsz]
  split
  · have h : stats.Used + U64 - req.Size = (stats.Used - req.Size) + U64 := by omega
    rw [h, Nat.add_mod_right, Nat.mod_eq_of_lt]
    omega
  · exact Nat.mod_eq_of_lt (by omega)

theorem hasAvailableResource_iff (rm : ResourceManager) (req : AllocationRequest) :
    rm.hasAvailableResource req = true ↔
      ∃ stats, rm.resources req.Typ = some stats ∧ stats.Used + req.Size ≤ stats.Available := by
  unfold ResourceManager.hasAvailableResource
  cases h : rm.resources req.Typ with
  | none => simp
  | some stats => simp

theorem reserve_eq (rm : ResourceManager) (req : AllocationRequest) (stats : ResourceStats)
    (hs : rm.resources req.Typ = some stats) (hfit : stats.Used + req.Size ≤ stats.Available)
    (hav : stats.Available < U64) :
    rm.reserve req =
      { rm with resources :=
          rm.resources.set req.Typ { stats with Used := stats.Used + req.Size,
                                                Peak := max stats.Peak (stats.Used + req.Size) } } := by
  unfold ResourceManager.reserve
  rw [hs]
  simp only [add64_eq (lt_of_le_of_lt hfit hav)]

theorem reserve_gcRuns (rm : ResourceManager) (req : AllocationRequest) :
    (rm.reserve req).gcRuns = rm.gcRuns := by
  unfold ResourceManager.reserve
  split <;> rfl

theorem collectMemory_gcRuns (c : Collaborators) (rm : ResourceManager) :
    (rm.collectMemory c).1.gcRuns = rm.gcRuns := by
  unfold ResourceManager.collectMemory
  simp only
  split
  · rfl
  · split <;> rfl

theorem garbageCollect_gcRuns (c : Collaborators) (rm : ResourceManager) (t : ResourceType) :
    (rm.garbageCollect c t).1.gcRuns = rm.gcRuns + 1 := by
  unfold ResourceManager.garbageCollect
  simp only
  split
  · rfl
  · split
    · rw [collectMemory_gcRuns]
    · split <;> rfl

theorem collectMemory_preserves (P : Resources → Prop) (c : Collaborators)
    (h1 : ∀ r, P r → P (c.clearCache r).1) (h2 : ∀ r, P r → P (c.compressMemory r).1)
    (rm : ResourceManager) (h : P rm.resources) : P (rm.collectMemory c).1.resources := by
  unfold ResourceManager.collectMemory
  simp only
  split
  · exact h1 _ h
  · split
    · exact h2 _ (h1 _ h)
    · exact h2 _ (h1 _ h)

/-- Reclamation keeps every property of the statistics that its three steps
keep. -/
theorem garbageCollect_preserves (P : Resources → Prop) (c : Collaborators)
    (h1 : ∀ r, P r → P (c.clearCache r).1) (h2 : ∀ r, P r → P (c.compressMemory r).1)
    (h3 : ∀ r, P r → P (c.optimizeCompute r).1)
    (rm : ResourceManager) (t : ResourceType) (h : P rm.resources) :
    P (rm.garbageCollect c t).1.resources := by
  unfold ResourceManager.garbageCollect
  simp only
  split
  · exact h
  · split
    · exact collectMemory_preserves P c h1 h2 _ h
    · split
      · exact h3 _ h
      · exact h

theorem Allocate_untracked (c : Collaborators) (rm : ResourceManager) (req : AllocationRequest)
    (h : rm.resources req.Typ = none) :
    rm.Allocate c req = (rm, some Error.ErrInvalidResourceType) := by
  unfold ResourceManager.Allocate
  rw [h]

theorem Allocate_fits (c : Collaborators) (rm : ResourceManager) (req : AllocationRequest)
    (hfit : rm.hasAvailableResource req = true) :
    rm.Allocate c req = (rm.reserve req, none) := by
  obtain ⟨stats, hs, _⟩ := (hasAvailableResource_iff rm req).mp hfit
  unfold ResourceManager.Allocate
  rw [hs]
  simp only [hfit, if_true]

theorem Allocate_reclaims (c : Collaborators) (rm : ResourceManager) (req : AllocationRequest)
    (stats : ResourceStats) (hs : rm.resources req.Typ = some stats)
    (hfit : rm.hasAvailableResource req = false) :
    rm.Allocate c req =
      match (rm.garbageCollect c req.Typ).2 with
      | some err => ((rm.garbageCollect c req.Typ).1, some err)
      | none =>
        if (rm.garbageCollect c req.Typ).1.hasAvailableResource req then
          ((rm.garbageCollect c req.Typ).1.reserve req, none)
        else ((rm.garbageCollect c req.Typ).1, some Error.ErrInsufficientResources) := by
  unfold ResourceManager.Allocate
  rw [hs]
  simp only [hfit, Bool.false_eq_true, if_false]

/-- A successful `Allocate` reserved on top of a state `base` in which the
request fits: the state on entry, or the one reclamation produced. -/
theorem Allocate_ok_base (c : Collaborators) (rm : ResourceManager) (req : AllocationRequest)
    (h : (rm.Allocate c req).2 = none) :
    ∃ base : ResourceManager,
      (rm.hasAvailableResource req = true ∧ base = rm ∨
        rm.hasAvailableResource req = false ∧ rm.garbageCollect c req.Typ = (base, none)) ∧
      base.hasAvailableResource req = true ∧
      (rm.Allocate c req).1 = base.reserve req := by
  cases hs : rm.resources req.Typ with
  | none =>
    rw [Allocate_untracked c rm req hs] at h
    cases h
  | some stats =>
    cases hfit : rm.hasAvailableResource req with
    | true =>
      refine ⟨rm, Or.inl ⟨rfl, rfl⟩, hfit, ?_⟩
      rw [Allocate_fits c rm req hfit]
    | false =>
      rw [Allocate_reclaims c rm req stats hs hfit] at h ⊢
      cases hg : rm.garbageCollect c req.Typ with
      | mk base err =>
        rw [hg] at h
        cases err with
        | some e => simp at h
        | none =>
          simp only at h
          cases hfit2 : base.hasAvailableResource req with
          | true =>
            refine ⟨base, Or.inr ⟨rfl, rfl⟩, hfit2, ?_⟩
            simp [hfit2]
          | false =>
            rw [hfit2] at h
            simp at h

theorem idle_InRange : idleCollaborators.InRange :=
  ⟨fun _ h => h, fun _ h => h, fun _ h => h⟩

theorem idle_KeepsLimits : idleCollaborators.KeepsLimits :=
  ⟨fun _ h => h, fun _ h => h, fun _ h => h⟩

theorem freeing_InRange (freed : Nat) : (freeingCollaborators freed).InRange := by
  refine ⟨?_, fun _ h => h, fun _ h => h⟩
  intro r hr t s1 hs1
  simp only [freeingCollaborators] at hs1
  split at hs1
  · obtain ⟨s0, h0, h1⟩ := Option.map_eq_some'.mp hs1
    obtain ⟨a, b, c, d⟩ := hr t s0 h0
    subst h1
    exact ⟨lt_of_le_of_lt (Nat.sub_le _ _) a, b, c, d⟩
  · exact hr t s1 hs1

theorem freeing_KeepsLimits (freed : Nat) : (freeingCollaborators freed).KeepsLimits := by
  refine ⟨?_, fun _ h => h, fun _ h => h⟩
  intro r hr t s1 hs1
  simp only [freeingCollaborators] at hs1
  split at hs1
  · obtain ⟨s0, h0, h1⟩ := Option.map_eq_some'.mp hs1
    have := hr t s0 h0
    subst h1
    exact le_trans (Nat.sub_le _ _) this
  · exact hr t s1 hs1

theorem exampleManager_InRange (used available peak : Nat) (h1 : used < U64)
    (h2 : available < U64) (h3 : peak < U64) :
    (exampleManager used available peak).resources.InRange := by
  intro t s hs
  simp only [exampleManager] at hs
  split at hs
  · cases hs
    exact ⟨h1, Nat.pos_of_ne_zero (by decide), h2, h3⟩
  · cases hs

theorem NewResourceManager_WithinLimits (maxVRAMBytes : Nat) (maxComputeThreads : Int)
    (maxBandwidthMBps : Nat) :
    (NewResourceManager maxVRAMBytes maxComputeThreads maxBandwidthMBps).resources.WithinLimits := by
  intro t s hs
  simp only [NewResourceManager] at hs
  split at hs
  · cases hs
    exact Nat.zero_le _
  · cases hs

/-- C6 (successful allocation, as stated): with `used = 90`, `available = 100`
and a reclamation that frees 50 bytes, `Allocate` of 20 bytes succeeds and
leaves `used = 60`, which is not the `90 + 20` of the state before the call. -/
theorem Allocate_after_reclaim_adds_to_reclaimed :
    ((exampleManager 90 100 90).Allocate (freeingCollaborators 50) (memoryRequest 20)).2 = none ∧
      ((exampleManager 90 100 90).Allocate (freeingCollaborators 50)
          (memoryRequest 20)).1.resources ResourceMemory
        = some { Used := 60, Reserved := 0, Available := 100, Peak := 90, LastGC := 0 } ∧
      (60 : Nat) ≠ 90 + 20 := by
  refine ⟨by decide, by decide, by decide⟩

/-- C6 (successful allocation, amended): for every Resource Manager state and
every request on which `Allocate` returns no error, the reservation is made on
top of the statistics `base` in force at the successful fit check: the state on
entry when the request fits at once, otherwise the state reclamation left.
`used` of the requested type afterwards is `used` of `base` plus the request
size, `peak` is `max(peak of base, used afterwards)`, and `available` as well
as the stats of every other resource type are those of `base`. -/
theorem Allocate_success_accounting (c : Collaborators) (rm : ResourceManager)
    (req : AllocationRequest) (hc : c.InRange) (hr : rm.resources.InRange)
    (h : (rm.Allocate c req).2 = none) :
    ∃ (base : ResourceManager) (stats : ResourceStats),
      (rm.hasAvailableResource req = true ∧ base = rm ∨
        rm.hasAvailableResource req = false ∧ rm.garbageCollect c req.Typ = (base, none)) ∧
      base.resources req.Typ = some stats ∧
      stats.Used + req.Size ≤ stats.Available ∧
      (rm.Allocate c req).1.resources req.Typ
        = some { stats with Used := stats.Used + req.Size,
                            Peak := max stats.Peak (stats.Used + req.Size) } ∧
      ∀ t, t ≠ req.Typ → (rm.Allocate c req).1.resources t = base.resources t := by
  obtain ⟨base, hb, hfit, hres⟩ := Allocate_ok_base c rm req h
  obtain ⟨stats, hs, hle⟩ := (hasAvailableResource_iff base req).mp hfit
  have hbr : base.resources.InRange := by
    rcases hb with ⟨_, rfl⟩ | ⟨_, hg⟩
    · exact hr
    · have := garbageCollect_preserves Resources.InRange c hc.clearCache hc.compressMemory
        hc.optimizeCompute rm req.Typ hr
      rw [hg] at this
      exact this
  have hav : stats.Available < U64 := (hbr _ _ hs).2.2.1
  refine ⟨base, stats, hb, hs, hle, ?_, ?_⟩
  · rw [hres, reserve_eq base req stats hs hle hav]
    simp [Resources.set]
  · intro t ht
    rw [hres, reserve_eq base req stats hs hle hav]
    simp [Resources.set, ht]

theorem Allocate_success_accounting_witness :
    (freeingCollaborators 50).InRange ∧ (exampleManager 90 100 90).resources.InRange ∧
    ((exampleManager 90 100 90).Allocate (freeingCollaborators 50) (memoryRequest 20)).2 = none ∧
    ∃ (base : ResourceManager) (stats : ResourceStats),
      ((exampleManager 90 100 90).hasAvailableResource (memoryRequest 20) = true ∧
          base = exampleManager 90 100 90 ∨
        (exampleManager 90 100 90).hasAvailableResource (memoryRequest 20) = false ∧
          (exampleManager 90 100 90).garbageCollect (freeingCollaborators 50)
            (memoryRequest 20).Typ = (base, none)) ∧
      base.resources (memoryRequest 20).Typ = some stats ∧
      stats.Used + (memoryRequest 20).Size ≤ stats.Available ∧
      ((exampleManager 90 100 90).Allocate (freeingCollaborators 50)
          (memoryRequest 20)).1.resources (memoryRequest 20).Typ
        = some { stats with Used := stats.Used + (memoryRequest 20).Size,
                            Peak := max stats.Peak (stats.Used + (memoryRequest 20).Size) } ∧
      ∀ t, t ≠ (memoryRequest 20).Typ →
        ((exampleManager 90 100 90).Allocate (freeingCollaborators 50)
          (memoryRequest 20)).1.resources t = base.resources t :=
  ⟨freeing_InRange 50, exampleManager_InRange 90 100 90 (by decide) (by decide) (by decide),
    by decide,
    Allocate_success_accounting (freeingCollaborators 50) (exampleManager 90 100 90)
      (memoryRequest 20) (freeing_InRange 50)
      (exampleManager_InRange 90 100 90 (by decide) (by decide) (by decide)) (by decide)⟩

/-- C7 (allocation under pressure, as stated): when the cache-clearing step of
reclamation fails, `Allocate` returns that error; it neither succeeds nor
reports `ErrInsufficientResources`, although the request still does not fit. -/
theorem Allocate_returns_reclaim_error :
    ((exampleManager 90 100 90).Allocate (failingCollaborators 7) (memoryRequest 20)).2
        = some (Error.collaborator 7) ∧
      ((exampleManager 90 100 90).Allocate (failingCollaborators 7) (memoryRequest 20)).2
        ≠ some Error.ErrInsufficientResources ∧
      ((exampleManager 90 100 90).Allocate (failingCollaborators 7)
        (memoryRequest 20)).1.hasAvailableResource (memoryRequest 20) = false := by
  refine ⟨by decide, by decide, by decide⟩

/-- C7 (allocation under pressure, amended): for every Resource Manager state
and every request on a tracked resource type that does not fit
(`used + size > available`), `Allocate` runs reclamation exactly once. If
reclamation returns an error, `Allocate` returns that error without a second
check. If reclamation succeeds and the request fits the statistics it left,
the allocation succeeds on top of them. Otherwise `Allocate` fails with
`ErrInsufficientResources` and the state is the one reclamation left:
`Allocate` itself changes neither `used` nor `peak`. -/
theorem Allocate_under_pressure (c : Collaborators) (rm : ResourceManager)
    (req : AllocationRequest) (stats : ResourceStats)
    (hs : rm.resources req.Typ = some stats)
    (hfit : stats.Used + req.Size > stats.Available) :
    (rm.Allocate c req).1.gcRuns = rm.gcRuns + 1 ∧
    (∀ err, (rm.garbageCollect c req.Typ).2 = some err →
      rm.Allocate c req = ((rm.garbageCollect c req.Typ).1, some err)) ∧
    ((rm.garbageCollect c req.Typ).2 = none →
      (rm.garbageCollect c req.Typ).1.hasAvailableResource req = true →
      rm.Allocate c req = ((rm.garbageCollect c req.Typ).1.reserve req, none)) ∧
    ((rm.garbageCollect c req.Typ).2 = none →
      (rm.garbageCollect c req.Typ).1.hasAvailableResource req = false →
      rm.Allocate c req
        = ((rm.garbageCollect c req.Typ).1, some Error.ErrInsufficientResources)) := by
  have hno : rm.hasAvailableResource req = false := by
    cases hb : rm.hasAvailableResource req with
    | false => rfl
    | true =>
      obtain ⟨s1, h1, h2⟩ := (hasAvailableResource_iff rm req).mp hb
      rw [hs] at h1
      cases h1
      omega
  have hA := Allocate_reclaims c rm req stats hs hno
  have hg := garbageCollect_gcRuns c rm req.Typ
  refine ⟨?_, ?_, ?_, ?_⟩
  · rw [hA]
    split
    · exact hg
    · split
      · rw [reserve_gcRuns]; exact hg
      · exact hg
  · intro err he
    rw [hA, he]
  · intro he hf
    rw [hA, he]
    simp only [hf, if_true]
  · intro he hf
    rw [hA, he]
    simp only [hf, Bool.false_eq_true, if_false]

theorem Allocate_under_pressure_witness :
    (exampleManager 90 100 90).resources (memoryRequest 20).Typ
        = some { Used := 90, Reserved := 0, Available := 100, Peak := 90, LastGC := 0 } ∧
      (90 : Nat) + (memoryRequest 20).Size > 100 ∧
      ((exampleManager 90 100 90).Allocate (freeingCollaborators 5) (memoryRequest 20)).1.gcRuns
        = (exampleManager 90 100 90).gcRuns + 1 ∧
      ((exampleManager 90 100 90).Allocate (freeingCollaborators 5) (memoryRequest 20)).2
        = some Error.ErrInsufficientResources :=
  ⟨by decide, by decide,
    (Allocate_under_pressure (freeingCollaborators 5) (exampleManager 90 100 90)
      (memoryRequest 20) { Used := 90, Reserved := 0, Available := 100, Peak := 90, LastGC := 0 }
      (by decide) (by decide)).1,
    by decide⟩

/-- With reclamation steps that only reclaim, a successful `Allocate` keeps
`used ≤ available` for every tracked resource type. -/
theorem Allocate_keeps_within_limits (c : Collaborators) (rm : ResourceManager)
    (req : AllocationRequest) (hc : c.KeepsLimits) (hinv : rm.resources.WithinLimits)
    (h : (rm.Allocate c req).2 = none) :
    (rm.Allocate c req).1.resources.WithinLimits := by
  obtain ⟨base, hb, hfit, hres⟩ := Allocate_ok_base c rm req h
  obtain ⟨stats, hs, hle⟩ := (hasAvailableResource_iff base req).mp hfit
  have hbr : base.resources.WithinLimits := by
    rcases hb with ⟨_, rfl⟩ | ⟨_, hg⟩
    · exact hinv
    · have := garbageCollect_preserves Resources.WithinLimits c hc.clearCache
        hc.compressMemory hc.optimizeCompute rm req.Typ hinv
      rw [hg] at this
      exact this
  rw [hres]
  unfold ResourceManager.reserve
  rw [hs]
  intro t s1 hs1
  simp only [Resources.set] at hs1
  split at hs1
  · cases hs1
    exact le_trans (add64_le _ _) hle
  · exact hbr t s1 hs1

theorem Allocate_keeps_within_limits_witness :
    (freeingCollaborators 50).KeepsLimits ∧
      (NewResourceManager 100 8 240).resources.WithinLimits ∧
      ((NewResourceManager 100 8 240).Allocate (freeingCollaborators 50) (memoryRequest 60)).2
        = none ∧
      ((NewResourceManager 100 8 240).Allocate (freeingCollaborators 50)
        (memoryRequest 60)).1.resources.WithinLimits :=
  ⟨freeing_KeepsLimits 50, NewResourceManager_WithinLimits 100 8 240, by decide,
    Allocate_keeps_within_limits (freeingCollaborators 50) (NewResourceManager 100 8 240)
      (memoryRequest 60) (freeing_KeepsLimits 50) (NewResourceManager_WithinLimits 100 8 240)
      (by decide)⟩

theorem exampleManager_WithinLimits (used available peak : Nat) (h : used ≤ available) :
    (exampleManager used available peak).resources.WithinLimits := by
  intro t s hs
  simp only [exampleManager] at hs
  split at hs
  · cases hs
    exact h
  · cases hs

theorem exampleManager2_WithinLimits (memUsed memAvailable compUsed compAvailable : Nat)
    (h1 : memUsed ≤ memAvailable) (h2 : compUsed ≤ compAvailable) :
    (exampleManager2 memUsed memAvailable compUsed compAvailable).resources.WithinLimits := by
  intro t s hs
  simp only [exampleManager2] at hs
  split at hs
  · cases hs
    exact h1
  · split at hs
    · cases hs
      exact h2
    · cases hs

/-- The statistics after the reservation made by `Allocate`. -/
theorem reserve_resources (rm : ResourceManager) (req : AllocationRequest)
    (stats : ResourceStats) (hs : rm.resources req.Typ = some stats) :
    (rm.reserve req).resources =
      rm.resources.set req.Typ
        { stats with Used := add64 stats.Used req.Size,
                     Peak := max stats.Peak (add64 stats.Used req.Size) } := by
  unfold ResourceManager.reserve
  rw [hs]

/-- C8 (limits invariant, as stated): memory and compute are both within
their limits (90 of 100, 5 of 10); a memory request of 20 does not fit, so
`Allocate` runs reclamation, whose cache-clearing step frees the memory and
leaves 11 compute units in use; the request then fits and `Allocate` succeeds,
leaving compute with `used = 11 > available = 10`. -/
theorem Allocate_succeeds_after_overcommitting_reclaim :
    (exampleManager2 90 100 5 10).resources.WithinLimits ∧
    ((exampleManager2 90 100 5 10).Allocate overcommittingCollaborators (memoryRequest 20)).2
      = none ∧
    ((exampleManager2 90 100 5 10).Allocate overcommittingCollaborators
        (memoryRequest 20)).1.resources ResourceCompute
      = some { Used := 11, Reserved := 0, Available := 10, Peak := 5, LastGC := 0 } ∧
    ¬ ((exampleManager2 90 100 5 10).Allocate overcommittingCollaborators
        (memoryRequest 20)).1.resources.WithinLimits := by
  have hc : ((exampleManager2 90 100 5 10).Allocate overcommittingCollaborators
        (memoryRequest 20)).1.resources ResourceCompute
      = some { Used := 11, Reserved := 0, Available := 10, Peak := 5, LastGC := 0 } := by
    decide
  refine ⟨exampleManager2_WithinLimits 90 100 5 10 (by decide) (by decide), by decide, hc, ?_⟩
  intro h
  have := h ResourceCompute _ hc
  revert this
  decide

/-- C8 (limits invariant, amended): for every Resource Manager state in which
`used ≤ available` holds for every tracked resource type, and every request,
the state after a successful `Allocate` satisfies `used ≤ available` for the
requested resource type, whatever reclamation did. When the request fits
without reclamation, it satisfies it for every tracked resource type. When
reclamation ran, `Allocate` leaves every other resource type as reclamation
left it, so `used ≤ available` holds for every tracked type after the call
exactly when it holds in the statistics reclamation left. -/
theorem Allocate_limits_after_success (c : Collaborators) (rm : ResourceManager)
    (req : AllocationRequest) (hinv : rm.resources.WithinLimits)
    (h : (rm.Allocate c req).2 = none) :
    (∀ s, (rm.Allocate c req).1.resources req.Typ = some s → s.Used ≤ s.Available) ∧
    (rm.hasAvailableResource req = true → (rm.Allocate c req).1.resources.WithinLimits) ∧
    (rm.hasAvailableResource req = false →
      (∀ t, t ≠ req.Typ →
        (rm.Allocate c req).1.resources t = (rm.garbageCollect c req.Typ).1.resources t) ∧
      ((rm.Allocate c req).1.resources.WithinLimits ↔
        (rm.garbageCollect c req.Typ).1.resources.WithinLimits)) := by
  obtain ⟨base, hb, hfit, hres⟩ := Allocate_ok_base c rm req h
  obtain ⟨stats, hs, hle⟩ := (hasAvailableResource_iff base req).mp hfit
  have hnew : add64 stats.Used req.Size ≤ stats.Available := le_trans (add64_le _ _) hle
  have hres2 := reserve_resources base req stats hs
  have keep : base.resources.WithinLimits → (rm.Allocate c req).1.resources.WithinLimits := by
    intro hbr t s1 hs1
    rw [hres, hres2] at hs1
    simp only [Resources.set] at hs1
    split at hs1
    · cases hs1
      exact hnew
    · exact hbr t s1 hs1
  refine ⟨?_, ?_, ?_⟩
  · intro s1 hs1
    rw [hres, hres2] at hs1
    simp only [Resources.set, if_true] at hs1
    cases hs1
    exact hnew
  · intro hyes
    rcases hb with ⟨_, rfl⟩ | ⟨hno, _⟩
    · exact keep hinv
    · rw [hyes] at hno
      cases hno
  · intro hno
    rcases hb with ⟨hyes, _⟩ | ⟨_, hg⟩
    · rw [hno] at hyes
      cases hyes
    · have hbase : (rm.garbageCollect c req.Typ).1 = base := by rw [hg]
      rw [hbase]
      refine ⟨?_, ?_, keep⟩
      · intro t ht
        rw [hres, hres2]
        simp only [Resources.set, if_neg ht]
      · intro hafter t s1 hs1
        by_cases ht : t = req.Typ
        · subst ht
          rw [hs] at hs1
          cases hs1
          omega
        · apply hafter t s1
          rw [hres, hres2]
          simp only [Resources.set, if_neg ht]
          exact hs1

theorem Allocate_limits_after_success_witness :
    (exampleManager 90 100 90).resources.WithinLimits ∧
    ((exampleManager 90 100 90).Allocate (freeingCollaborators 50) (memoryRequest 20)).2 = none ∧
    (exampleManager 90 100 90).hasAvailableResource (memoryRequest 20) = false ∧
    ((exampleManager 90 100 90).Allocate (freeingCollaborators 50)
        (memoryRequest 20)).1.resources ResourceMemory
      = some { Used := 60, Reserved := 0, Available := 100, Peak := 90, LastGC := 0 } ∧
    (∀ s, ((exampleManager 90 100 90).Allocate (freeingCollaborators 50)
        (memoryRequest 20)).1.resources (memoryRequest 20).Typ = some s →
      s.Used ≤ s.Available) :=
  ⟨exampleManager_WithinLimits 90 100 90 (by decide), by decide, by decide, by decide,
    (Allocate_limits_after_success (freeingCollaborators 50) (exampleManager 90 100 90)
      (memoryRequest 20) (exampleManager_WithinLimits 90 100 90 (by decide)) (by decide)).1⟩

/-- C9 (unknown resource type): for every Resource Manager state and every
request whose resource type has no stats entry, `Allocate` returns
`ErrInvalidResourceType` without running reclamation and leaves the stats of
every resource type unchanged. -/
theorem Allocate_unknown_type (c : Collaborators) (rm : ResourceManager)
    (req : AllocationRequest) (h : rm.resources req.Typ = none) :
    (rm.Allocate c req).2 = some Error.ErrInvalidResourceType ∧
      (rm.Allocate c req).1.gcRuns = rm.gcRuns ∧
      (rm.Allocate c req).1.resources = rm.resources := by
  rw [Allocate_untracked c rm req h]
  exact ⟨rfl, rfl, rfl⟩

theorem Allocate_unknown_type_witness :
    (NewResourceManager 100 8 240).resources
        ({ Typ := ResourceCompute, Size := 4, Priority := 0, Timeout := 0 } : AllocationRequest).Typ
        = none ∧
      ((NewResourceManager 100 8 240).Allocate idleCollaborators
          { Typ := ResourceCompute, Size := 4, Priority := 0, Timeout := 0 }).2
        = some Error.ErrInvalidResourceType ∧
      ((NewResourceManager 100 8 240).Allocate idleCollaborators
          { Typ := ResourceCompute, Size := 4, Priority := 0, Timeout := 0 }).1.gcRuns
        = (NewResourceManager 100 8 240).gcRuns ∧
      ((NewResourceManager 100 8 240).Allocate idleCollaborators
          { Typ := ResourceCompute, Size := 4, Priority := 0, Timeout := 0 }).1.resources
        = (NewResourceManager 100 8 240).resources :=
  ⟨by decide,
    Allocate_unknown_type idleCollaborators (NewResourceManager 100 8 240)
      { Typ := ResourceCompute, Size := 4, Priority := 0, Timeout := 0 } (by decide)⟩

end Gpu

/-! ## Properties of the cache manager -/

namespace Gpu

theorem totalSize_nil : totalSize [] = 0 := rfl

theorem totalSize_cons (e : Element) (l : List Element) :
    totalSize (e :: l) = e.Value.sizeBytes + totalSize l := by
  simp [totalSize]

theorem totalSize_append (l₁ l₂ : List Element) :
    totalSize (l₁ ++ l₂) = totalSize l₁ + totalSize l₂ := by
  simp [totalSize]

theorem totalSize_perm {l₁ l₂ : List Element} (h : l₁.Perm l₂) : totalSize l₁ = totalSize l₂ := by
  unfold totalSize
  exact (h.map _).sum_eq

theorem WF_empty (cap : Nat) : (CacheManager.empty cap).WF where
  nodup := by simp [CacheManager.empty]
  fresh := by simp [CacheManager.empty]
  points := by simp [CacheManager.empty]
  size_eq := by simp [CacheManager.empty, totalSize]
  size_le := by simp [CacheManager.empty]

/-- On a well-formed cache whose list ends in `x`, `removeOldest` drops exactly
that node, forgets its key and subtracts its size without wrapping. -/
theorem removeOldest_eq (cm : CacheManager) (hwf : cm.WF) (hcap : cm.maxSizeBytes < U64)
    (d : List Element) (x : Element) (hx : cm.cache = d ++ [x]) :
    cm.removeOldest =
      ({ cm with
          cache := d,
          lookup := fun k => if k = x.Value.key then none else cm.lookup k,
          currentSize := cm.currentSize - x.Value.sizeBytes }, true) := by
  have hback : Back cm.cache = some x := by
    rw [hx]; simp [Back]
  have hnot : x ∉ d := by
    intro hmem
    have hn := hwf.nodup
    rw [hx, List.map_append, List.nodup_append] at hn
    exact hn.2.2 (List.mem_map_of_mem _ hmem) (by simp)
  have hrem : Remove cm.cache x = d := by
    rw [hx]; unfold Remove
    rw [List.erase_append_right _ hnot]; simp
  have hsz : x.Value.sizeBytes ≤ cm.currentSize := by
    rw [hwf.size_eq, hx, totalSize_append, totalSize_cons, totalSize_nil]; omega
  have hsub : sub64 cm.currentSize x.Value.sizeBytes = cm.currentSize - x.Value.sizeBytes :=
    sub64_eq (lt_of_le_of_lt hwf.size_le hcap) hsz
  unfold CacheManager.removeOldest
  rw [hback]
  simp only [hrem, hsub]

theorem removeOldest_WF (cm : CacheManager) (hwf : cm.WF)
    (d : List Element) (x : Element) (hx : cm.cache = d ++ [x]) :
    CacheManager.WF
      { cm with
          cache := d,
          lookup := fun k => if k = x.Value.key then none else cm.lookup k,
          currentSize := cm.currentSize - x.Value.sizeBytes } where
  nodup := by
    have hn := hwf.nodup
    rw [hx, List.map_append, List.nodup_append] at hn
    exact hn.1
  fresh := by
    intro e he
    exact hwf.fresh e (by rw [hx]; exact List.mem_append_left _ he)
  points := by
    intro k e hk
    simp only at hk
    split at hk
    · cases hk
    · rename_i hne
      obtain ⟨hmem, hkey⟩ := hwf.points k e hk
      refine ⟨?_, hkey⟩
      rw [hx, List.mem_append] at hmem
      rcases hmem with h | h
      · exact h
      · simp only [List.mem_singleton] at h
        subst h
        exact absurd hkey.symm hne
  size_eq := by
    show cm.currentSize - x.Value.sizeBytes = totalSize d
    rw [hwf.size_eq, hx, totalSize_append, totalSize_cons, totalSize_nil]; omega
  size_le := by
    show cm.currentSize - x.Value.sizeBytes ≤ cm.maxSizeBytes
    have := hwf.size_le
    omega

theorem removeOldest_length (cm : CacheManager) (h : cm.removeOldest.2 = true) :
    cm.removeOldest.1.cache.length + 1 = cm.cache.length := by
  unfold CacheManager.removeOldest at h ⊢
  cases hb : Back cm.cache with
  | none => rw [hb] at h; cases h
  | some x =>
    have hmem : x ∈ cm.cache := List.mem_of_getLast?_eq_some hb
    have hpos : 0 < cm.cache.length := List.length_pos_of_mem hmem
    simp only [Remove, List.length_erase_of_mem hmem]
    omega

/-- The eviction loop never runs out of fuel when given more than the length
of the recency list: more fuel does not change its result. -/
theorem evictLoop_fuel (sizeBytes : Nat) :
    ∀ (fuel : Nat) (cm : CacheManager), cm.cache.length < fuel →
      CacheManager.evictLoop sizeBytes fuel cm = CacheManager.evictLoop sizeBytes (fuel + 1) cm := by
  intro fuel
  induction fuel with
  | zero => intro cm h; omega
  | succ fuel ih =>
    intro cm hlen
    rw [CacheManager.evictLoop, CacheManager.evictLoop]
    split
    · simp only
      split
      · rename_i hr
        have := removeOldest_length cm hr
        exact ih _ (by omega)
      · rfl
    · rfl

/-- The eviction loop on a well-formed cache, when no addition can wrap and
the new entry fits the capacity: it never leaves through `return false`, it
keeps a well-formed cache whose list is the longest front segment of the old
list that leaves room for the new entry. -/
theorem evictLoop_spec (sizeBytes : Nat) :
    ∀ (fuel : Nat) (cm : CacheManager), cm.WF → 2 * cm.maxSizeBytes < U64 →
      sizeBytes ≤ cm.maxSizeBytes → cm.cache.length < fuel →
      ∃ cm1, CacheManager.evictLoop sizeBytes fuel cm = (cm1, true) ∧ cm1.WF ∧
        cm1.maxSizeBytes = cm.maxSizeBytes ∧ cm1.nextId = cm.nextId ∧
        cm1.currentSize + sizeBytes ≤ cm.maxSizeBytes ∧
        cm1.cache <+: cm.cache ∧
        (∀ p, p <+: cm.cache → totalSize p + sizeBytes ≤ cm.maxSizeBytes →
          p.length ≤ cm1.cache.length) ∧
        (∀ k e, cm1.lookup k = some e → cm.lookup k = some e) := by
  intro fuel
  induction fuel with
  | zero => intro cm _ _ _ hlen; omega
  | succ fuel ih =>
    intro cm hwf hcap hsize hlen
    have hle := hwf.size_le
    have hadd : add64 cm.currentSize sizeBytes = cm.currentSize + sizeBytes :=
      add64_eq (by omega)
    unfold CacheManager.evictLoop
    rw [hadd]
    by_cases hgt : cm.currentSize + sizeBytes > cm.maxSizeBytes
    · rw [if_pos hgt]
      have hne : cm.cache ≠ [] := by
        intro hnil
        have h0 := hwf.size_eq
        rw [hnil, totalSize_nil] at h0
        omega
      rcases List.eq_nil_or_concat cm.cache with hnil | ⟨d, x, hx⟩
      · exact absurd hnil hne
      · rw [List.concat_eq_append] at hx
        rw [removeOldest_eq cm hwf (by omega) d x hx]
        simp only [if_true]
        have hwf1 := removeOldest_WF cm hwf d x hx
        have hlen1 : d.length < fuel := by
          rw [hx] at hlen
          simp only [List.length_append, List.length_singleton] at hlen
          omega
        obtain ⟨cm1, hrun, hwf2, hmax, hid, hfit, hpre, hlong, hlook⟩ :=
          ih _ hwf1 hcap hsize hlen1
        refine ⟨cm1, hrun, hwf2, hmax, hid, hfit, ?_, ?_, ?_⟩
        · rw [hx]
          exact List.IsPrefix.trans hpre (List.prefix_append d [x])
        · intro p hp hpfit
          rw [hx, List.prefix_concat_iff] at hp
          rcases hp with hp | hp
          · exfalso
            have h0 := hwf.size_eq
            rw [hx, ← hp] at h0
            omega
          · exact hlong p hp hpfit
        · intro k e hk
          have h1 := hlook k e hk
          simp only at h1
          split at h1
          · cases h1
          · exact h1
    · rw [if_neg hgt]
      refine ⟨cm, rfl, hwf, rfl, rfl, by omega, List.prefix_refl _, ?_, fun _ _ h => h⟩
      intro p hp _
      exact hp.length_le

/-- What `Add` does on a well-formed cache when no addition can wrap and the
entry fits the capacity. -/
theorem Add_spec (cm : CacheManager) (hwf : cm.WF) (hcap : 2 * cm.maxSizeBytes < U64)
    (key : String) (data : Payload) (sizeBytes : Nat) (hsize : sizeBytes ≤ cm.maxSizeBytes) :
    ∃ kept : List Element,
      (cm.Add key data sizeBytes).2 = true ∧
      (cm.Add key data sizeBytes).1.cache
        = { id := cm.nextId, Value := { key := key, sizeBytes := sizeBytes, data := data } } :: kept ∧
      kept <+: cm.cache ∧
      totalSize kept + sizeBytes ≤ cm.maxSizeBytes ∧
      (∀ p, p <+: cm.cache → totalSize p + sizeBytes ≤ cm.maxSizeBytes → p.length ≤ kept.length) ∧
      (cm.Add key data sizeBytes).1.WF ∧
      (cm.Add key data sizeBytes).1.maxSizeBytes = cm.maxSizeBytes ∧
      (cm.Add key data sizeBytes).1.currentSize = totalSize kept + sizeBytes := by
  obtain ⟨cm1, hrun, hwf1, hmax, hid, hfit, hpre, hlong, _⟩ :=
    evictLoop_spec sizeBytes (cm.cache.length + 1) cm hwf hcap hsize (Nat.lt_succ_self _)
  have hadd : add64 cm1.currentSize sizeBytes = cm1.currentSize + sizeBytes :=
    add64_eq (by omega)
  have hA : cm.Add key data sizeBytes =
      ({ cm1 with
          cache := { id := cm1.nextId,
                     Value := { key := key, sizeBytes := sizeBytes, data := data } } :: cm1.cache,
          lookup := fun k =>
            if k = key then
              some { id := cm1.nextId,
                     Value := { key := key, sizeBytes := sizeBytes, data := data } }
            else cm1.lookup k,
          currentSize := cm1.currentSize + sizeBytes,
          nextId := cm1.nextId + 1 }, true) := by
    unfold CacheManager.Add
    rw [if_neg (by omega), hrun]
    simp only [if_true, PushFront, hadd]
  rw [hA]
  refine ⟨cm1.cache, rfl, by simp only [hid], hpre, ?_, hlong, ?_, hmax, ?_⟩
  · rw [← hwf1.size_eq]; exact hfit
  · constructor
    · show ((_ :: cm1.cache).map fun e => e.id).Nodup
      rw [List.map_cons, List.nodup_cons]
      refine ⟨?_, hwf1.nodup⟩
      intro hmem
      obtain ⟨e, he, heq⟩ := List.mem_map.mp hmem
      have := hwf1.fresh e he
      simp only at heq
      omega
    · intro e he
      show e.id < cm1.nextId + 1
      rcases List.mem_cons.mp he with h | h
      · subst h; simp
      · have := hwf1.fresh e h; omega
    · intro k e hk
      simp only at hk
      split at hk
      · rename_i hkey
        cases hk
        exact ⟨List.mem_cons_self _ _, hkey.symm⟩
      · obtain ⟨h1, h2⟩ := hwf1.points k e hk
        exact ⟨List.mem_cons_of_mem _ h1, h2⟩
    · show cm1.currentSize + sizeBytes = totalSize (_ :: cm1.cache)
      rw [totalSize_cons, hwf1.size_eq]; simp only; omega
    · show cm1.currentSize + sizeBytes ≤ cm1.maxSizeBytes
      omega
  · show cm1.currentSize + sizeBytes = totalSize cm1.cache + sizeBytes
    rw [hwf1.size_eq]

/-- `Add` refuses an entry larger than the capacity and changes nothing. -/
theorem Add_too_large (cm : CacheManager) (key : String) (data : Payload) (sizeBytes : Nat)
    (h : sizeBytes > cm.maxSizeBytes) : cm.Add key data sizeBytes = (cm, false) := by
  unfold CacheManager.Add
  rw [if_pos h]

theorem Add_WF (cm : CacheManager) (hwf : cm.WF) (hcap : 2 * cm.maxSizeBytes < U64)
    (key : String) (data : Payload) (sizeBytes : Nat) :
    (cm.Add key data sizeBytes).1.WF ∧
      (cm.Add key data sizeBytes).1.maxSizeBytes = cm.maxSizeBytes := by
  by_cases h : sizeBytes > cm.maxSizeBytes
  · rw [Add_too_large cm key data sizeBytes h]
    exact ⟨hwf, rfl⟩
  · obtain ⟨_, _, _, _, _, _, h1, h2, _⟩ :=
      Add_spec cm hwf hcap key data sizeBytes (by omega)
    exact ⟨h1, h2⟩

theorem MoveToFront_perm (l : List Element) (e : Element) : (MoveToFront l e).Perm l := by
  unfold MoveToFront
  split
  · rename_i h
    exact (List.perm_cons_erase h).symm
  · exact List.Perm.refl _

theorem Get_WF (cm : CacheManager) (hwf : cm.WF) (key : String) :
    (cm.Get key).1.WF ∧ (cm.Get key).1.maxSizeBytes = cm.maxSizeBytes := by
  unfold CacheManager.Get
  split
  · rename_i element _
    have hp := MoveToFront_perm cm.cache element
    refine ⟨?_, rfl⟩
    constructor
    · exact ((hp.map _).nodup_iff).mpr hwf.nodup
    · intro e he
      exact hwf.fresh e (hp.mem_iff.mp he)
    · intro k e hk
      obtain ⟨h1, h2⟩ := hwf.points k e hk
      exact ⟨hp.mem_iff.mpr h1, h2⟩
    · show cm.currentSize = totalSize (MoveToFront cm.cache element)
      rw [totalSize_perm hp]; exact hwf.size_eq
    · exact hwf.size_le
  · exact ⟨hwf, rfl⟩

theorem step_WF (cm : CacheManager) (hwf : cm.WF) (hcap : 2 * cm.maxSizeBytes < U64)
    (op : CacheOp) : (cm.step op).WF ∧ (cm.step op).maxSizeBytes = cm.maxSizeBytes := by
  cases op with
  | add key data sizeBytes => exact Add_WF cm hwf hcap key data sizeBytes
  | get key => exact Get_WF cm hwf key

theorem run_WF (ops : List CacheOp) :
    ∀ cm : CacheManager, cm.WF → 2 * cm.maxSizeBytes < U64 →
      (cm.run ops).WF ∧ (cm.run ops).maxSizeBytes = cm.maxSizeBytes := by
  induction ops with
  | nil => intro cm hwf _; exact ⟨hwf, rfl⟩
  | cons op ops ih =>
    intro cm hwf hcap
    obtain ⟨h1, h2⟩ := step_WF cm hwf hcap op
    obtain ⟨h3, h4⟩ := ih (cm.step op) h1 (by rw [h2]; exact hcap)
    exact ⟨h3, by rw [← h2]; exact h4⟩

theorem Linked_empty (cap : Nat) : (CacheManager.empty cap).Linked where
  nodup := by simp [CacheManager.empty]
  fresh := by simp [CacheManager.empty]
  points := by simp [CacheManager.empty]

theorem Linked_consistent {cm : CacheManager} (h : cm.Linked) : cm.Consistent :=
  fun k e hk => (h.points k e hk).1

theorem removeOldest_Linked (cm : CacheManager) (h : cm.Linked) :
    cm.removeOldest.1.Linked ∧ cm.removeOldest.1.nextId = cm.nextId := by
  unfold CacheManager.removeOldest
  cases hb : Back cm.cache with
  | none => exact ⟨h, rfl⟩
  | some x =>
    obtain ⟨d, hx⟩ := List.getLast?_eq_some_iff.mp hb
    have hn := h.nodup
    rw [hx, List.map_append, List.nodup_append] at hn
    have hnot : x ∉ d := fun hmem => hn.2.2 (List.mem_map_of_mem _ hmem) (by simp)
    have hrem : Remove cm.cache x = d := by
      rw [hx]; unfold Remove
      rw [List.erase_append_right _ hnot]; simp
    refine ⟨⟨by simp only [hrem]; exact hn.1, ?_, ?_⟩, rfl⟩
    all_goals simp only [hrem]
    · intro e he
      exact h.fresh e (by rw [hx]; exact List.mem_append_left _ he)
    · intro k e hk
      split at hk
      · cases hk
      · rename_i hne
        obtain ⟨hmem, hkey⟩ := h.points k e hk
        refine ⟨?_, hkey⟩
        rw [hx, List.mem_append] at hmem
        rcases hmem with h1 | h1
        · exact h1
        · simp only [List.mem_singleton] at h1
          subst h1
          exact absurd hkey.symm hne

theorem evictLoop_Linked (sizeBytes : Nat) :
    ∀ (fuel : Nat) (cm : CacheManager), cm.Linked →
      (CacheManager.evictLoop sizeBytes fuel cm).1.Linked ∧
        (CacheManager.evictLoop sizeBytes fuel cm).1.nextId = cm.nextId := by
  intro fuel
  induction fuel with
  | zero => intro cm h; exact ⟨h, rfl⟩
  | succ fuel ih =>
    intro cm h
    unfold CacheManager.evictLoop
    obtain ⟨h1, h2⟩ := removeOldest_Linked cm h
    split
    · simp only
      split
      · obtain ⟨h3, h4⟩ := ih _ h1
        exact ⟨h3, h4.trans h2⟩
      · exact ⟨h1, h2⟩
    · exact ⟨h, rfl⟩

theorem Add_Linked (cm : CacheManager) (h : cm.Linked) (key : String) (data : Payload)
    (sizeBytes : Nat) : (cm.Add key data sizeBytes).1.Linked := by
  unfold CacheManager.Add
  obtain ⟨h1, _⟩ := evictLoop_Linked sizeBytes (cm.cache.length + 1) cm h
  split
  · exact h
  · simp only
    split
    · refine ⟨?_, ?_, ?_⟩
      · show (List.map (fun e : Element => e.id) (_ :: _)).Nodup
        rw [List.map_cons, List.nodup_cons]
        refine ⟨?_, h1.nodup⟩
        intro hmem
        obtain ⟨e, he, heq⟩ := List.mem_map.mp hmem
        have := h1.fresh e he
        simp only at heq
        omega
      · intro e he
        show e.id < _ + 1
        rcases List.mem_cons.mp he with h2 | h2
        · subst h2; simp
        · have := h1.fresh e h2; omega
      · intro k e hk
        simp only at hk
        split at hk
        · rename_i hkey
          cases hk
          exact ⟨List.mem_cons_self _ _, hkey.symm⟩
        · obtain ⟨h2, h3⟩ := h1.points k e hk
          exact ⟨List.mem_cons_of_mem _ h2, h3⟩
    · exact h1

theorem Get_Linked (cm : CacheManager) (h : cm.Linked) (key : String) :
    (cm.Get key).1.Linked := by
  unfold CacheManager.Get
  split
  · rename_i element _
    have hp := MoveToFront_perm cm.cache element
    refine ⟨((hp.map _).nodup_iff).mpr h.nodup, ?_, ?_⟩
    · intro e he
      exact h.fresh e (hp.mem_iff.mp he)
    · intro k e hk
      obtain ⟨h1, h2⟩ := h.points k e hk
      exact ⟨hp.mem_iff.mpr h1, h2⟩
  · exact h

theorem run_Linked (ops : List CacheOp) :
    ∀ cm : CacheManager, cm.Linked → (cm.run ops).Linked := by
  induction ops with
  | nil => intro cm h; exact h
  | cons op ops ih =>
    intro cm h
    refine ih (cm.step op) ?_
    cases op with
    | add key data sizeBytes => exact Add_Linked cm h key data sizeBytes
    | get key => exact Get_Linked cm h key

/-- Every state reached from an empty cache, of any capacity, has its lookup
map pointing into the recency list. -/
theorem run_consistent (cap : Nat) (ops : List CacheOp) :
    ((CacheManager.empty cap).run ops).Consistent :=
  Linked_consistent (run_Linked ops _ (Linked_empty cap))

/-- C2 (capacity invariant, as stated): with capacity `2 ^ 63` (the cache
`NewCacheManager` builds for `MaxCacheSizeGB = 2 ^ 33`), two entries of
`2 ^ 63` bytes are both admitted, because `currentSize + sizeBytes` wraps to
`0`; the list then holds `2 ^ 64` bytes, more than the capacity. -/
theorem capacity_exceeded_when_sum_wraps :
    (NewCacheManager (2 ^ 33)).maxSizeBytes = 2 ^ 63 ∧
    totalSize ((NewCacheManager (2 ^ 33)).run
          [CacheOp.add "a" 0 (2 ^ 63), CacheOp.add "b" 0 (2 ^ 63)]).cache = 2 ^ 64 ∧
    ¬ totalSize ((NewCacheManager (2 ^ 33)).run
          [CacheOp.add "a" 0 (2 ^ 63), CacheOp.add "b" 0 (2 ^ 63)]).cache
        ≤ ((NewCacheManager (2 ^ 33)).run
          [CacheOp.add "a" 0 (2 ^ 63), CacheOp.add "b" 0 (2 ^ 63)]).maxSizeBytes := by
  refine ⟨by decide, by decide, by decide⟩

/-- C2 (capacity invariant, amended): for every capacity below `2 ^ 63` bytes
and every finite sequence of `Add` and `Get` calls starting from an empty
cache, after each call (after the first `n` calls, for every `n`) the sizes of
the entries held in the recency list sum to at most the capacity. -/
theorem capacity_invariant (cap : Nat) (ops : List CacheOp) (n : Nat) (hcap : 2 * cap < U64) :
    totalSize ((CacheManager.empty cap).run (ops.take n)).cache ≤ cap := by
  obtain ⟨hwf, hmax⟩ := run_WF (ops.take n) (CacheManager.empty cap) (WF_empty cap) hcap
  have h1 := hwf.size_eq
  have h2 := hwf.size_le
  rw [hmax] at h2
  rw [← h1]
  exact h2

theorem capacity_invariant_witness :
    2 * 100 < U64 ∧
      totalSize ((CacheManager.empty 100).run
        ([CacheOp.add "a" 1 60, CacheOp.add "b" 2 50, CacheOp.get "a"].take 2)).cache ≤ 100 :=
  ⟨by decide,
    capacity_invariant 100 [CacheOp.add "a" 1 60, CacheOp.add "b" 2 50, CacheOp.get "a"] 2
      (by decide)⟩

/-- C3 (oversized entry): for every cache state, key and payload, `Add` with
`sizeBytes` strictly greater than the capacity returns `false` and leaves the
cache unchanged: the state is the same, in particular the recency list, the
lookup map and `currentSize`. -/
theorem Add_rejects_oversized (cm : CacheManager) (key : String) (data : Payload)
    (sizeBytes : Nat) (h : sizeBytes > cm.maxSizeBytes) :
    (cm.Add key data sizeBytes).2 = false ∧
      (cm.Add key data sizeBytes).1 = cm ∧
      (cm.Add key data sizeBytes).1.cache = cm.cache ∧
      (cm.Add key data sizeBytes).1.lookup = cm.lookup ∧
      (cm.Add key data sizeBytes).1.currentSize = cm.currentSize := by
  rw [Add_too_large cm key data sizeBytes h]
  exact ⟨rfl, rfl, rfl, rfl, rfl⟩

theorem Add_rejects_oversized_witness :
    101 > ((CacheManager.empty 100).Add "a" 1 60).1.maxSizeBytes ∧
      ((((CacheManager.empty 100).Add "a" 1 60).1.Add "big" 7 101).2 = false ∧
        (((CacheManager.empty 100).Add "a" 1 60).1.Add "big" 7 101).1
          = ((CacheManager.empty 100).Add "a" 1 60).1 ∧
        (((CacheManager.empty 100).Add "a" 1 60).1.Add "big" 7 101).1.cache
          = ((CacheManager.empty 100).Add "a" 1 60).1.cache ∧
        (((CacheManager.empty 100).Add "a" 1 60).1.Add "big" 7 101).1.lookup
          = ((CacheManager.empty 100).Add "a" 1 60).1.lookup ∧
        (((CacheManager.empty 100).Add "a" 1 60).1.Add "big" 7 101).1.currentSize
          = ((CacheManager.empty 100).Add "a" 1 60).1.currentSize) :=
  ⟨by decide, Add_rejects_oversized ((CacheManager.empty 100).Add "a" 1 60).1 "big" 7 101 (by decide)⟩

/-- C4 (LRU eviction, as stated): with capacity `2 ^ 63`, after `Add("a", 2 ^ 63)`
the call `Add("b", 2 ^ 63)` evicts nothing although the two entries together
exceed the capacity: the resulting list is not the new entry followed by a
segment that fits next to it. -/
theorem Add_keeps_too_much_when_sum_wraps :
    (((CacheManager.empty (2 ^ 63)).run [CacheOp.add "a" 0 (2 ^ 63)]).Add "b" 0 (2 ^ 63)).1.cache
        = [⟨1, ⟨"b", 2 ^ 63, 0⟩⟩, ⟨0, ⟨"a", 2 ^ 63, 0⟩⟩] ∧
      ¬ ∃ kept : List Element,
        (((CacheManager.empty (2 ^ 63)).run [CacheOp.add "a" 0 (2 ^ 63)]).Add "b" 0 (2 ^ 63)).1.cache
            = ⟨1, ⟨"b", 2 ^ 63, 0⟩⟩ :: kept ∧
          totalSize kept + 2 ^ 63 ≤ 2 ^ 63 := by
  have h : (((CacheManager.empty (2 ^ 63)).run [CacheOp.add "a" 0 (2 ^ 63)]).Add "b" 0
      (2 ^ 63)).1.cache = [⟨1, ⟨"b", 2 ^ 63, 0⟩⟩, ⟨0, ⟨"a", 2 ^ 63, 0⟩⟩] := by decide
  refine ⟨h, ?_⟩
  rintro ⟨kept, h1, h2⟩
  rw [h] at h1
  injection h1 with _ h3
  subst h3
  revert h2
  decide

/-- C4 (LRU eviction, amended): for every capacity below `2 ^ 63` bytes, every
cache state reached by `Add`/`Get` calls from the empty cache and every
`Add(key, payload, size)` with `size ≤ capacity`, `Add` returns `true` and the
resulting recency list is the new entry followed by `kept`, the longest front
(most recently used) segment of the old list whose total size plus `size` is
at most the capacity, in unchanged order; the evicted entries are the
remaining, least recently touched ones. -/
theorem Add_evicts_least_recent (cap : Nat) (ops : List CacheOp) (key : String)
    (data : Payload) (sizeBytes : Nat) (hcap : 2 * cap < U64) (hsize : sizeBytes ≤ cap) :
    ∃ kept evicted : List Element,
      (((CacheManager.empty cap).run ops).Add key data sizeBytes).2 = true ∧
      (((CacheManager.empty cap).run ops).Add key data sizeBytes).1.cache
        = { id := ((CacheManager.empty cap).run ops).nextId,
            Value := { key := key, sizeBytes := sizeBytes, data := data } } :: kept ∧
      ((CacheManager.empty cap).run ops).cache = kept ++ evicted ∧
      totalSize kept + sizeBytes ≤ cap ∧
      (∀ p, p <+: ((CacheManager.empty cap).run ops).cache → totalSize p + sizeBytes ≤ cap →
        p.length ≤ kept.length) ∧
      (((CacheManager.empty cap).run ops).Add key data sizeBytes).1.currentSize
        = totalSize kept + sizeBytes := by
  obtain ⟨hwf, hmax⟩ := run_WF ops (CacheManager.empty cap) (WF_empty cap) hcap
  have hmax1 : ((CacheManager.empty cap).run ops).maxSizeBytes = cap := hmax
  obtain ⟨kept, h1, h2, ⟨evicted, h3⟩, h4, h5, _, _, h6⟩ :=
    Add_spec ((CacheManager.empty cap).run ops) hwf (by rw [hmax1]; exact hcap) key data
      sizeBytes (by rw [hmax1]; exact hsize)
  rw [hmax1] at h4 h5
  exact ⟨kept, evicted, h1, h2, h3.symm, h4, h5, h6⟩

theorem Add_evicts_least_recent_witness :
    2 * 100 < U64 ∧ 50 ≤ 100 ∧
    (∃ kept evicted : List Element,
      (((CacheManager.empty 100).run [CacheOp.add "a" 1 60]).Add "b" 2 50).2 = true ∧
      (((CacheManager.empty 100).run [CacheOp.add "a" 1 60]).Add "b" 2 50).1.cache
        = { id := ((CacheManager.empty 100).run [CacheOp.add "a" 1 60]).nextId,
            Value := { key := "b", sizeBytes := 50, data := 2 } } :: kept ∧
      ((CacheManager.empty 100).run [CacheOp.add "a" 1 60]).cache = kept ++ evicted ∧
      totalSize kept + 50 ≤ 100 ∧
      (∀ p, p <+: ((CacheManager.empty 100).run [CacheOp.add "a" 1 60]).cache →
        totalSize p + 50 ≤ 100 → p.length ≤ kept.length) ∧
      (((CacheManager.empty 100).run [CacheOp.add "a" 1 60]).Add "b" 2 50).1.currentSize
        = totalSize kept + 50) ∧
    (((CacheManager.empty 100).run [CacheOp.add "a" 1 60]).Add "b" 2 50).1.cache
      = [⟨1, ⟨"b", 50, 2⟩⟩] ∧
    (((CacheManager.empty 100).run [CacheOp.add "a" 1 60]).Add "b" 2 50).1.currentSize = 50 ∧
    ((((CacheManager.empty 100).run [CacheOp.add "a" 1 60]).Add "b" 2 50).1.Get "a").2
      = (none, false) :=
  ⟨by decide, by decide,
    Add_evicts_least_recent 100 [CacheOp.add "a" 1 60] "b" 2 50 (by decide) (by decide),
    by decide, by decide, by decide⟩

/-- C5 (Get): for every cache state whose lookup map points into the recency
list (as it does in every state reached through `Add` and `Get`) and every
key: on a miss `Get` returns `(nil, false)` and the state is unchanged; on a
hit it returns the payload of the node found and `true`, and the list becomes
that node followed by the other nodes in their old order. In both cases
nothing is evicted: the list holds the same nodes, and the lookup map,
`currentSize` and the capacity are unchanged. -/
theorem Get_promotes_and_keeps (cm : CacheManager) (key : String) (hc : cm.Consistent) :
    (match cm.lookup key with
      | none => cm.Get key = (cm, none, false)
      | some e =>
        (cm.Get key).2 = (some e.Value.data, true) ∧
          (cm.Get key).1.cache = e :: cm.cache.erase e) ∧
      (cm.Get key).1.cache.Perm cm.cache ∧
      (cm.Get key).1.lookup = cm.lookup ∧
      (cm.Get key).1.currentSize = cm.currentSize ∧
      (cm.Get key).1.maxSizeBytes = cm.maxSizeBytes := by
  unfold CacheManager.Get
  cases hl : cm.lookup key with
  | none => exact ⟨rfl, List.Perm.refl _, rfl, rfl, rfl⟩
  | some e =>
    have hmem : e ∈ cm.cache := hc key e hl
    refine ⟨⟨rfl, ?_⟩, MoveToFront_perm cm.cache e, rfl, rfl, rfl⟩
    show MoveToFront cm.cache e = e :: cm.cache.erase e
    unfold MoveToFront
    rw [if_pos hmem]

theorem Get_promotes_and_keeps_witness :
    ((CacheManager.empty 100).run
        [CacheOp.add "a" 1 30, CacheOp.add "b" 2 30, CacheOp.add "c" 3 30]).Consistent ∧
    (((CacheManager.empty 100).run
        [CacheOp.add "a" 1 30, CacheOp.add "b" 2 30, CacheOp.add "c" 3 30]).Get "a").1.cache
      = [⟨0, ⟨"a", 30, 1⟩⟩, ⟨2, ⟨"c", 30, 3⟩⟩, ⟨1, ⟨"b", 30, 2⟩⟩] ∧
    (((CacheManager.empty 100).run
        [CacheOp.add "a" 1 30, CacheOp.add "b" 2 30, CacheOp.add "c" 3 30]).Get "a").2
      = (some 1, true) ∧
    (((CacheManager.empty 100).run
        [CacheOp.add "a" 1 30, CacheOp.add "b" 2 30, CacheOp.add "c" 3 30]).Get "a").1.cache.Perm
      ((CacheManager.empty 100).run
        [CacheOp.add "a" 1 30, CacheOp.add "b" 2 30, CacheOp.add "c" 3 30]).cache :=
  ⟨run_consistent 100 _, by decide, by decide,
    (Get_promotes_and_keeps
      ((CacheManager.empty 100).run
        [CacheOp.add "a" 1 30, CacheOp.add "b" 2 30, CacheOp.add "c" 3 30]) "a"
      (run_consistent 100 _)).2.1⟩

end Gpu

/-! ## Properties of the priority queue and the scheduler -/

namespace Gpu.scheduler

theorem Swap_length (h : PriorityQueue) (i j : Nat) : (h.Swap i j).length = h.length := by
  unfold PriorityQueue.Swap
  split <;> simp

theorem getElem?_Swap (h : PriorityQueue) (i j k : Nat) (hi : i < h.length) (hj : j < h.length) :
    (h.Swap i j)[k]? = if k = j then h[i]? else if k = i then h[j]? else h[k]? := by
  unfold PriorityQueue.Swap
  rw [List.getElem?_eq_getElem hi, List.getElem?_eq_getElem hj]
  simp only
  by_cases hkj : k = j
  · subst hkj
    rw [if_pos rfl, List.getElem?_set_self (by simpa using hj)]
  · rw [if_neg hkj, List.getElem?_set_ne (Ne.symm hkj)]
    by_cases hki : k = i
    · subst hki
      rw [if_pos rfl, List.getElem?_set_self hi]
    · rw [if_neg hki, List.getElem?_set_ne (Ne.symm hki)]

theorem Swap_perm (h : PriorityQueue) (i j : Nat) : (h.Swap i j).Perm h := by
  unfold PriorityQueue.Swap
  cases hi : h[i]? with
  | none => exact List.Perm.refl _
  | some a =>
    cases hj : h[j]? with
    | none => exact List.Perm.refl _
    | some b =>
      simp only
      obtain ⟨hi1, hi2⟩ := List.getElem?_eq_some.mp hi
      obtain ⟨hj1, hj2⟩ := List.getElem?_eq_some.mp hj
      rw [List.perm_iff_count]
      intro c
      rw [List.count_set _ _ _ _ (by simpa using hj1), List.count_set _ _ _ _ hi1]
      have ha : (if (a == c) = true then 1 else 0) ≤ List.count c h := by
        split
        · rename_i hac
          have : a = c := by simpa using hac
          subst this
          exact List.count_pos_iff.mpr (by rw [← hi2]; exact List.getElem_mem _)
        · exact Nat.zero_le _
      have hb : (if (b == c) = true then 1 else 0) ≤ List.count c h := by
        split
        · rename_i hbc
          have : b = c := by simpa using hbc
          subst this
          exact List.count_pos_iff.mpr (by rw [← hj2]; exact List.getElem_mem _)
        · exact Nat.zero_le _
      by_cases hij : i = j
      · subst hij
        have hab : a = b := by rw [← hi2, ← hj2]
        subst hab
        simp only [List.getElem_set_self, hi2]
        omega
      · rw [List.getElem_set_ne hij]
        simp only [hi2, hj2]
        omega

theorem prioAt_Swap (h : PriorityQueue) (i j k : Nat) (hi : i < h.length) (hj : j < h.length) :
    prioAt (h.Swap i j) k
      = if k = j then prioAt h i else if k = i then prioAt h j else prioAt h k := by
  unfold prioAt
  rw [getElem?_Swap h i j k hi hj]
  split_ifs <;> rfl

theorem Less_eq (h : PriorityQueue) (i j : Nat) (hi : i < h.length) (hj : j < h.length) :
    h.Less i j = decide (prioAt h i > prioAt h j) := by
  unfold PriorityQueue.Less prioAt
  rw [List.getElem?_eq_getElem hi, List.getElem?_eq_getElem hj]

theorem up_succ (fuel : Nat) (h : PriorityQueue) (j : Nat) :
    heap.up (fuel + 1) h j =
      if (j - 1) / 2 = j ∨ (!h.Less j ((j - 1) / 2)) = true then h
      else heap.up fuel (h.Swap ((j - 1) / 2) j) ((j - 1) / 2) := by
  rw [heap.up]

/-- `heap.up` never runs out of fuel when given more than the start index. -/
theorem up_fuel : ∀ (fuel : Nat) (h : PriorityQueue) (j : Nat), j < fuel →
    heap.up fuel h j = heap.up (fuel + 1) h j := by
  intro fuel
  induction fuel with
  | zero => intro h j hj; omega
  | succ fuel ih =>
    intro h j hj
    rw [up_succ fuel, up_succ (fuel + 1)]
    by_cases hstop : (j - 1) / 2 = j ∨ (!h.Less j ((j - 1) / 2)) = true
    · rw [if_pos hstop, if_pos hstop]
    · rw [if_neg hstop, if_neg hstop]
      have hne : (j - 1) / 2 ≠ j := fun he => hstop (Or.inl he)
      exact ih _ _ (by omega)

theorem down_succ (fuel : Nat) (h : PriorityQueue) (i n : Nat) :
    heap.down (fuel + 1) h i n =
      if 2 * i + 1 ≥ n then h
      else if (!h.Less (if 2 * i + 1 + 1 < n ∧ h.Less (2 * i + 1 + 1) (2 * i + 1) = true
                          then 2 * i + 1 + 1 else 2 * i + 1) i) = true then h
      else heap.down fuel
        (h.Swap i (if 2 * i + 1 + 1 < n ∧ h.Less (2 * i + 1 + 1) (2 * i + 1) = true
                    then 2 * i + 1 + 1 else 2 * i + 1))
        (if 2 * i + 1 + 1 < n ∧ h.Less (2 * i + 1 + 1) (2 * i + 1) = true
          then 2 * i + 1 + 1 else 2 * i + 1) n := by
  rw [heap.down]

/-- `heap.down` never runs out of fuel when given at least `n - i`. -/
theorem down_fuel : ∀ (fuel : Nat) (h : PriorityQueue) (i n : Nat), n ≤ i + fuel →
    heap.down fuel h i n = heap.down (fuel + 1) h i n := by
  intro fuel
  induction fuel with
  | zero =>
    intro h i n hn
    rw [down_succ, if_pos (by omega)]
    rfl
  | succ fuel ih =>
    intro h i n hn
    rw [down_succ fuel, down_succ (fuel + 1)]
    by_cases hleaf : 2 * i + 1 ≥ n
    · rw [if_pos hleaf, if_pos hleaf]
    · rw [if_neg hleaf, if_neg hleaf]
      generalize hj : (if 2 * i + 1 + 1 < n ∧ h.Less (2 * i + 1 + 1) (2 * i + 1) = true
                          then 2 * i + 1 + 1 else 2 * i + 1) = j
      have hgt : i < j := by
        rw [← hj]
        split <;> omega
      by_cases hl : (!h.Less j i) = true
      · rw [if_pos hl, if_pos hl]
      · rw [if_neg hl, if_neg hl]
        exact ih _ _ _ (by omega)

theorem down_length : ∀ (fuel : Nat) (h : PriorityQueue) (i n : Nat),
    (heap.down fuel h i n).length = h.length := by
  intro fuel
  induction fuel with
  | zero => intro h i n; rfl
  | succ fuel ih =>
    intro h i n
    rw [down_succ]
    by_cases hleaf : 2 * i + 1 ≥ n
    · rw [if_pos hleaf]
    · rw [if_neg hleaf]
      generalize (if 2 * i + 1 + 1 < n ∧ h.Less (2 * i + 1 + 1) (2 * i + 1) = true
                          then 2 * i + 1 + 1 else 2 * i + 1) = j
      by_cases hl : (!h.Less j i) = true
      · rw [if_pos hl]
      · rw [if_neg hl, ih, Swap_length]

theorem Pop_length (h : PriorityQueue) : (heap.Pop h).2.length = h.length - 1 := by
  unfold heap.Pop PriorityQueue.Pop
  simp only [List.length_dropLast, down_length, Swap_length]

/-- The admission loop never runs out of fuel when given more than the length
of the queue. -/
theorem tryScheduleLoop_fuel (c : ResourceRequest → Bool) :
    ∀ (fuel : Nat) (s : Scheduler), s.queue.length < fuel →
      Scheduler.tryScheduleLoop c fuel s = Scheduler.tryScheduleLoop c (fuel + 1) s := by
  intro fuel
  induction fuel with
  | zero => intro s hs; omega
  | succ fuel ih =>
    intro s hs
    rw [Scheduler.tryScheduleLoop, Scheduler.tryScheduleLoop]
    split
    · rename_i hc
      have hlen := Pop_length s.queue
      rcases hp : heap.Pop s.queue with ⟨t, q⟩
      rw [hp] at hlen
      cases t with
      | none => rfl
      | some task =>
        simp only
        split
        · rfl
        · simp only [Scheduler.startTask]
          apply ih
          simp only at hlen ⊢
          have := hc.1
          simp only [PriorityQueue.Len] at this
          omega
    · rfl

theorem down_swap_inv (h : PriorityQueue) (i j n : Nat) (hn : n ≤ h.length)
    (hinv : DownInv h i n) (hjn : j < n) (hj0 : 0 < j) (hpar : (j - 1) / 2 = i)
    (hmax : ∀ k, 0 < k → k < n → (k - 1) / 2 = i → prioAt h k ≤ prioAt h j)
    (hlt : prioAt h i < prioAt h j) :
    DownInv (h.Swap i j) j n := by
  have hi : i < h.length := by omega
  have hj : j < h.length := by omega
  obtain ⟨ha, hb⟩ := hinv
  constructor
  · intro k hk0 hkn hkp
    rw [prioAt_Swap h i j k hi hj, prioAt_Swap h i j ((k - 1) / 2) hi hj]
    by_cases hkj : k = j
    · subst hkj
      rw [if_pos rfl, if_neg hkp, if_pos hpar]
      omega
    · rw [if_neg hkj, if_neg hkp]
      by_cases hki : k = i
      · subst hki
        have h1 : (k - 1) / 2 ≠ k := by omega
        rw [if_pos rfl, if_neg h1]
        exact hb hk0 j hj0 hjn hpar
      · rw [if_neg hki]
        by_cases hpi : (k - 1) / 2 = i
        · rw [if_pos hpi]
          exact hmax k hk0 hkn hpi
        · rw [if_neg hpi]
          exact ha k hk0 hkn hpi
  · intro _ k hk0 hkn hkp
    rw [prioAt_Swap h i j k hi hj, prioAt_Swap h i j ((j - 1) / 2) hi hj]
    have h1 : k ≠ j := by omega
    have h2 : k ≠ i := by omega
    have h3 : (j - 1) / 2 ≠ j := by omega
    rw [if_neg h1, if_neg h2, if_neg h3, if_pos hpar]
    have := ha k hk0 hkn (by omega)
    rw [hkp] at this
    exact this

theorem down_spec : ∀ (fuel : Nat) (h : PriorityQueue) (i n : Nat),
    n ≤ h.length → n ≤ i + fuel → DownInv h i n →
    (heap.down fuel h i n).length = h.length ∧ (heap.down fuel h i n).Perm h ∧
      HeapUpTo (heap.down fuel h i n) n ∧
      ∀ k, n ≤ k → (heap.down fuel h i n)[k]? = h[k]? := by
  intro fuel
  induction fuel with
  | zero =>
    intro h i n _ hfuel hinv
    refine ⟨rfl, List.Perm.refl _, ?_, fun _ _ => rfl⟩
    intro k hk0 hkn
    exact hinv.1 k hk0 hkn (by omega)
  | succ fuel ih =>
    intro h i n hn hfuel hinv
    unfold heap.down
    simp only
    by_cases hleaf : 2 * i + 1 ≥ n
    · rw [if_pos hleaf]
      refine ⟨rfl, List.Perm.refl _, ?_, fun _ _ => rfl⟩
      intro k hk0 hkn
      exact hinv.1 k hk0 hkn (by omega)
    · rw [if_neg hleaf]
      have hi : i < h.length := by omega
      -- the child chosen by the loop
      obtain ⟨j, hjdef, hjn, hj0, hpar, hmax⟩ :
          ∃ j, (if 2 * i + 1 + 1 < n ∧ h.Less (2 * i + 1 + 1) (2 * i + 1) = true
                  then 2 * i + 1 + 1 else 2 * i + 1) = j ∧
            j < n ∧ 0 < j ∧ (j - 1) / 2 = i ∧
            ∀ k, 0 < k → k < n → (k - 1) / 2 = i → prioAt h k ≤ prioAt h j := by
        by_cases hc : 2 * i + 1 + 1 < n ∧ h.Less (2 * i + 1 + 1) (2 * i + 1) = true
        · refine ⟨2 * i + 1 + 1, if_pos hc, hc.1, by omega, by omega, ?_⟩
          intro k hk0 hkn hkp
          have hl := hc.2
          rw [Less_eq h _ _ (by omega) (by omega)] at hl
          have hl2 : prioAt h (2 * i + 1 + 1) > prioAt h (2 * i + 1) := by simpa using hl
          have hk : k = 2 * i + 1 ∨ k = 2 * i + 1 + 1 := by omega
          rcases hk with rfl | rfl
          · omega
          · exact le_refl _
        · refine ⟨2 * i + 1, if_neg hc, by omega, by omega, by omega, ?_⟩
          intro k hk0 hkn hkp
          have hk : k = 2 * i + 1 ∨ k = 2 * i + 1 + 1 := by omega
          rcases hk with rfl | rfl
          · exact le_refl _
          · have hl : ¬ h.Less (2 * i + 1 + 1) (2 * i + 1) = true := fun hl => hc ⟨hkn, hl⟩
            rw [Less_eq h _ _ (by omega) (by omega)] at hl
            simpa using hl
      rw [hjdef]
      have hj : j < h.length := by omega
      by_cases hless : h.Less j i = true
      · have hlt : prioAt h i < prioAt h j := by
          rw [Less_eq h j i hj hi] at hless
          simpa using hless
        simp only [hless, Bool.not_true, Bool.false_eq_true, if_false]
        have hinv2 := down_swap_inv h i j n hn hinv hjn hj0 hpar hmax hlt
        obtain ⟨h1, h2, h3, h4⟩ :=
          ih (h.Swap i j) j n (by rw [Swap_length]; exact hn) (by omega) hinv2
        refine ⟨by rw [h1, Swap_length], h2.trans (Swap_perm h i j), h3, ?_⟩
        intro k hk
        rw [h4 k hk, getElem?_Swap h i j k hi hj, if_neg (by omega), if_neg (by omega)]
      · have hge : prioAt h j ≤ prioAt h i := by
          rw [Less_eq h j i hj hi] at hless
          simpa using hless
        have hnl : (!h.Less j i) = true := by simp [hless]
        rw [if_pos hnl]
        refine ⟨rfl, List.Perm.refl _, ?_, fun _ _ => rfl⟩
        intro k hk0 hkn
        by_cases hkp : (k - 1) / 2 = i
        · rw [hkp]
          exact le_trans (hmax k hk0 hkn hkp) hge
        · exact hinv.1 k hk0 hkn hkp

theorem prioAt_of_getElem? {h : PriorityQueue} {k : Nat} {t : Task} (hk : h[k]? = some t) :
    prioAt h k = t.Priority := by
  unfold prioAt
  rw [hk]

/-- In a max-heap no element has a higher priority than the root. -/
theorem root_max (h : PriorityQueue) (hheap : HeapOrdered h) :
    ∀ k, k < h.length → prioAt h k ≤ prioAt h 0 := by
  intro k
  induction k using Nat.strong_induction_on with
  | _ k ih =>
    intro hk
    by_cases hk0 : k = 0
    · subst hk0; exact le_refl _
    · have h1 := hheap k (by omega) hk
      have h2 := ih ((k - 1) / 2) (by omega) (by omega)
      exact le_trans h1 h2

theorem mem_le_root (h : PriorityQueue) (hheap : HeapOrdered h) (t : Task)
    (ht : h[0]? = some t) : ∀ x ∈ h, x.Priority ≤ t.Priority := by
  intro x hx
  obtain ⟨k, hk, hxk⟩ := List.getElem_of_mem hx
  have h1 := root_max h hheap k hk
  rw [prioAt_of_getElem? ht,
    prioAt_of_getElem? (by rw [List.getElem?_eq_getElem hk, hxk] : h[k]? = some x)] at h1
  exact h1

/-- `heap.Pop` on a non-empty max-heap returns the root, which has the highest
priority, and leaves a max-heap holding exactly the other elements. -/
theorem Pop_spec (h : PriorityQueue) (hne : h ≠ []) (hheap : HeapOrdered h) :
    ∃ t q, heap.Pop h = (some t, q) ∧ h[0]? = some t ∧ (t :: q).Perm h ∧ HeapOrdered q ∧
      q.length + 1 = h.length ∧ ∀ x ∈ q, x.Priority ≤ t.Priority := by
  have hlen : 0 < h.length := List.length_pos.mpr hne
  have hn : h.length - 1 < h.length := by omega
  obtain ⟨t, ht⟩ : ∃ t, h[0]? = some t := ⟨h[0], List.getElem?_eq_getElem hlen⟩
  have hinv : DownInv (h.Swap 0 (h.length - 1)) 0 (h.length - 1) := by
    constructor
    · intro k hk0 hkn hkp
      rw [prioAt_Swap h 0 _ k hlen hn, prioAt_Swap h 0 _ ((k - 1) / 2) hlen hn]
      rw [if_neg (by omega), if_neg (by omega), if_neg (by omega), if_neg hkp]
      exact hheap k hk0 (by omega)
    · intro h0; omega
  obtain ⟨h1, h2, h3, h4⟩ :=
    down_spec h.length (h.Swap 0 (h.length - 1)) 0 (h.length - 1)
      (by rw [Swap_length]; omega) (by omega) hinv
  rw [Swap_length] at h1
  have hlast : (heap.down h.length (h.Swap 0 (h.length - 1)) 0 (h.length - 1)).getLast? = some t := by
    rw [List.getLast?_eq_getElem?, h1, h4 _ (le_refl _), getElem?_Swap h 0 _ _ hlen hn,
      if_pos rfl, ht]
  have hsplit := List.dropLast_append_getLast? t hlast
  refine ⟨t, (heap.down h.length (h.Swap 0 (h.length - 1)) 0 (h.length - 1)).dropLast, ?_, ht,
    ?_, ?_, ?_, ?_⟩
  · unfold heap.Pop PriorityQueue.Pop PriorityQueue.Len
    simp only [hlast]
  · have hp : (t :: (heap.down h.length (h.Swap 0 (h.length - 1)) 0
        (h.length - 1)).dropLast).Perm
        (heap.down h.length (h.Swap 0 (h.length - 1)) 0 (h.length - 1)) := by
      conv => rhs; rw [← hsplit]
      exact (List.perm_append_singleton _ _).symm
    exact hp.trans (h2.trans (Swap_perm h 0 _))
  · intro k hk0 hkn
    rw [List.length_dropLast, h1] at hkn
    have e : ∀ m, m < h.length - 1 →
        prioAt (heap.down h.length (h.Swap 0 (h.length - 1)) 0 (h.length - 1)).dropLast m
          = prioAt (heap.down h.length (h.Swap 0 (h.length - 1)) 0 (h.length - 1)) m := by
      intro m hm
      unfold prioAt
      rw [List.dropLast_eq_take, h1, List.getElem?_take_of_lt hm]
    rw [e k hkn, e ((k - 1) / 2) (by omega)]
    exact h3 k hk0 hkn
  · rw [List.length_dropLast, h1]; omega
  · intro x hx
    apply mem_le_root h hheap t ht x
    have hx2 : x ∈ heap.down h.length (h.Swap 0 (h.length - 1)) 0 (h.length - 1) :=
      List.mem_of_mem_dropLast hx
    exact (Swap_perm h 0 _).mem_iff.mp (h2.mem_iff.mp hx2)

theorem up_swap_inv (h : PriorityQueue) (j : Nat) (hj : j < h.length) (hj0 : 0 < j)
    (hinv : UpInv h j) (hlt : prioAt h ((j - 1) / 2) < prioAt h j) :
    UpInv (h.Swap ((j - 1) / 2) j) ((j - 1) / 2) := by
  have hi : (j - 1) / 2 < h.length := by omega
  obtain ⟨ha, hb⟩ := hinv
  constructor
  · intro k hk0 hkn hki
    rw [Swap_length] at hkn
    rw [prioAt_Swap h _ j k hi hj, prioAt_Swap h _ j ((k - 1) / 2) hi hj]
    by_cases hkj : k = j
    · subst hkj
      have h1 : (k - 1) / 2 ≠ k := by omega
      rw [if_pos rfl, if_neg h1, if_pos rfl]
      omega
    · rw [if_neg hkj, if_neg hki]
      by_cases hpj : (k - 1) / 2 = j
      · rw [if_pos hpj]
        exact hb hj0 k hk0 hkn hpj
      · rw [if_neg hpj]
        by_cases hpi : (k - 1) / 2 = (j - 1) / 2
        · rw [if_pos hpi]
          have := ha k hk0 hkn hkj
          rw [hpi] at this
          omega
        · rw [if_neg hpi]
          exact ha k hk0 hkn hkj
  · intro hi0 k hk0 hkn hkp
    rw [Swap_length] at hkn
    rw [prioAt_Swap h _ j k hi hj, prioAt_Swap h _ j (((j - 1) / 2 - 1) / 2) hi hj]
    have h1 : ((j - 1) / 2 - 1) / 2 ≠ j := by omega
    have h2 : ((j - 1) / 2 - 1) / 2 ≠ (j - 1) / 2 := by omega
    rw [if_neg h1, if_neg h2]
    have hpar := ha ((j - 1) / 2) hi0 hi (by omega)
    by_cases hkj : k = j
    · rw [if_pos hkj]
      exact hpar
    · have hki : k ≠ (j - 1) / 2 := by omega
      rw [if_neg hkj, if_neg hki]
      have := ha k hk0 hkn hkj
      rw [hkp] at this
      exact le_trans this hpar

theorem up_spec : ∀ (fuel : Nat) (h : PriorityQueue) (j : Nat),
    j < h.length → j < fuel → UpInv h j →
    (heap.up fuel h j).length = h.length ∧ (heap.up fuel h j).Perm h ∧
      HeapOrdered (heap.up fuel h j) := by
  intro fuel
  induction fuel with
  | zero => intro h j _ hf _; omega
  | succ fuel ih =>
    intro h j hj hf hinv
    have hi : (j - 1) / 2 < h.length := by omega
    unfold heap.up
    simp only
    by_cases hstop : (j - 1) / 2 = j ∨ (!h.Less j ((j - 1) / 2)) = true
    · rw [if_pos hstop]
      refine ⟨rfl, List.Perm.refl _, ?_⟩
      intro k hk0 hkn
      by_cases hkj : k = j
      · subst hkj
        rcases hstop with h1 | h1
        · omega
        · rw [Less_eq h k _ hj hi] at h1
          simpa using h1
      · exact hinv.1 k hk0 hkn hkj
    · rw [if_neg hstop]
      have hj0 : 0 < j := by
        by_contra h0
        exact hstop (Or.inl (by omega))
      have hlt : prioAt h ((j - 1) / 2) < prioAt h j := by
        have h1 : h.Less j ((j - 1) / 2) = true := by
          by_contra h2
          exact hstop (Or.inr (by simp [h2]))
        rw [Less_eq h j _ hj hi] at h1
        simpa using h1
      have hinv2 := up_swap_inv h j hj hj0 hinv hlt
      obtain ⟨h1, h2, h3⟩ :=
        ih (h.Swap ((j - 1) / 2) j) ((j - 1) / 2) (by rw [Swap_length]; exact hi) (by omega) hinv2
      exact ⟨by rw [h1, Swap_length], h2.trans (Swap_perm h _ j), h3⟩

/-- `heap.Push` keeps a max-heap a max-heap and adds exactly the pushed task. -/
theorem Push_spec (h : PriorityQueue) (x : Task) (hheap : HeapOrdered h) :
    HeapOrdered (heap.Push h x) ∧ (heap.Push h x).Perm (x :: h) ∧
      (heap.Push h x).length = h.length + 1 := by
  have hlen : (h ++ [x]).length = h.length + 1 := by simp
  have hinv : UpInv (h ++ [x]) h.length := by
    constructor
    · intro k hk0 hkn hkj
      rw [hlen] at hkn
      have hk : k < h.length := by omega
      have e : ∀ m, m < h.length → prioAt (h ++ [x]) m = prioAt h m := by
        intro m hm
        unfold prioAt
        rw [List.getElem?_append_left hm]
      rw [e k hk, e _ (by omega)]
      exact hheap k hk0 hk
    · intro _ k hk0 hkn hkp
      rw [hlen] at hkn
      omega
  obtain ⟨h1, h2, h3⟩ := up_spec (h ++ [x]).length (h ++ [x]) h.length (by omega) (by omega) hinv
  unfold heap.Push PriorityQueue.Push PriorityQueue.Len
  rw [hlen] at h1 h2 h3 ⊢
  simp only [Nat.add_sub_cancel]
  exact ⟨h3, h2.trans (List.perm_append_singleton x h), h1⟩

theorem HeapOrdered_nil : HeapOrdered [] := by
  intro k _ hk
  simp at hk

/-- Pushing tasks one after the other onto a max-heap gives a max-heap holding
the old and the new tasks. -/
theorem foldl_Push_spec (tasks : List Task) :
    ∀ h : PriorityQueue, HeapOrdered h →
      HeapOrdered (tasks.foldl heap.Push h) ∧ (tasks.foldl heap.Push h).Perm (h ++ tasks) := by
  induction tasks with
  | nil => intro h hh; simpa using hh
  | cons t ts ih =>
    intro h hh
    obtain ⟨h1, h2, _⟩ := Push_spec h t hh
    obtain ⟨h3, h4⟩ := ih (heap.Push h t) h1
    refine ⟨h3, h4.trans ?_⟩
    have : (heap.Push h t ++ ts).Perm ((t :: h) ++ ts) := h2.append_right ts
    refine this.trans ?_
    simp only [List.cons_append]
    exact (List.perm_middle).symm

/-- The admission loop on a max-heap queue with a resource manager that always
admits, given enough fuel: it starts tasks in non-increasing priority order
until the queue is empty or no slot is free. -/
theorem tryScheduleLoop_admit :
    ∀ (fuel : Nat) (s : Scheduler), HeapOrdered s.queue → s.queue.length < fuel →
      ∃ admitted : List Task,
        (Scheduler.tryScheduleLoop alwaysAdmit fuel s).2 = none ∧
        (Scheduler.tryScheduleLoop alwaysAdmit fuel s).1.started = s.started ++ admitted ∧
        (admitted ++ (Scheduler.tryScheduleLoop alwaysAdmit fuel s).1.queue).Perm s.queue ∧
        HeapOrdered (Scheduler.tryScheduleLoop alwaysAdmit fuel s).1.queue ∧
        admitted.Pairwise (fun a b => b.Priority ≤ a.Priority) ∧
        (∀ a ∈ admitted, ∀ x ∈ (Scheduler.tryScheduleLoop alwaysAdmit fuel s).1.queue,
          x.Priority ≤ a.Priority) ∧
        ((Scheduler.tryScheduleLoop alwaysAdmit fuel s).1.queue = [] ∨
          ¬ (((Scheduler.tryScheduleLoop alwaysAdmit fuel s).1.runningTasks.length : Int)
              < (Scheduler.tryScheduleLoop alwaysAdmit fuel s).1.maxConcurrent)) := by
  intro fuel
  induction fuel with
  | zero => intro s _ hf; omega
  | succ fuel ih =>
    intro s hheap hf
    unfold Scheduler.tryScheduleLoop
    by_cases hc : s.queue.Len > 0 ∧ (s.runningTasks.length : Int) < s.maxConcurrent
    · rw [if_pos hc]
      have hne : s.queue ≠ [] := by
        intro h0
        have := hc.1
        rw [h0] at this
        simp [PriorityQueue.Len] at this
      obtain ⟨t, q, hpop, _, hperm, hq, hlen, hmax⟩ := Pop_spec s.queue hne hheap
      rw [hpop]
      simp only [alwaysAdmit, Bool.not_true, Bool.false_eq_true, if_false, Scheduler.startTask]
      obtain ⟨adm, h1, h2, h3, h4, h5, h6, h7⟩ :=
        ih { s with
              queue := q,
              runningTasks := s.runningTasks.insert t.ID t,
              metrics := { s.metrics with RunningTasks := s.metrics.RunningTasks + 1 },
              started := s.started ++ [t] } hq (by simp only; omega)
      refine ⟨t :: adm, h1, ?_, ?_, h4, ?_, ?_, h7⟩
      · rw [h2]; simp
      · exact (List.Perm.cons t h3).trans hperm
      · rw [List.pairwise_cons]
        refine ⟨?_, h5⟩
        intro b hb
        exact hmax b (h3.mem_iff.mp (List.mem_append_left _ hb))
      · intro a ha x hx
        rcases List.mem_cons.mp ha with rfl | ha
        · exact hmax x (h3.mem_iff.mp (List.mem_append_right _ hx))
        · exact h6 a ha x hx
    · rw [if_neg hc]
      refine ⟨[], rfl, by simp, by simp, hheap, List.Pairwise.nil, by simp, ?_⟩
      by_cases h0 : s.queue = []
      · exact Or.inl h0
      · right
        intro hlt
        apply hc
        refine ⟨?_, hlt⟩
        simp only [PriorityQueue.Len]
        exact List.length_pos.mpr h0

/-- Without a free slot `Submit` only queues the task. -/
theorem submitAll_full (c : ResourceRequest → Bool) (tasks : List Task) :
    ∀ s : Scheduler, ¬ ((s.runningTasks.length : Int) < s.maxConcurrent) →
      (s.submitAll c tasks).queue = tasks.foldl heap.Push s.queue ∧
        (s.submitAll c tasks).started = s.started ∧
        (s.submitAll c tasks).runningTasks = s.runningTasks ∧
        (s.submitAll c tasks).maxConcurrent = s.maxConcurrent := by
  induction tasks with
  | nil => intro s _; exact ⟨rfl, rfl, rfl, rfl⟩
  | cons t ts ih =>
    intro s hfull
    have hstep : (Scheduler.Submit c s t).1 =
        { s with
          queue := heap.Push s.queue t,
          metrics := { s.metrics with QueueLength := s.metrics.QueueLength + 1 } } := by
      unfold Scheduler.Submit Scheduler.trySchedule Scheduler.tryScheduleLoop
      rw [if_neg (fun h => hfull h.2)]
    have hs : s.submitAll c (t :: ts) = (Scheduler.Submit c s t).1.submitAll c ts := rfl
    rw [hs, hstep]
    exact ih _ hfull

theorem Push_nil (task : Task) : heap.Push [] task = [task] := by
  simp [heap.Push, PriorityQueue.Push, PriorityQueue.Len, heap.up]

theorem Pop_singleton (task : Task) : heap.Pop [task] = (some task, []) := by
  simp [heap.Pop, PriorityQueue.Pop, PriorityQueue.Len, PriorityQueue.Swap, heap.down]

/-- With an empty queue, a free slot and a resource manager that always
admits, `Submit` starts the submitted task at once, whatever its priority. -/
theorem Submit_on_empty_queue (s : Scheduler) (task : Task) (hq : s.queue = [])
    (hslot : (s.runningTasks.length : Int) < s.maxConcurrent) :
    (Scheduler.Submit alwaysAdmit s task).1.started = s.started ++ [task] ∧
      (Scheduler.Submit alwaysAdmit s task).1.queue = [] ∧
      (Scheduler.Submit alwaysAdmit s task).2 = none := by
  unfold Scheduler.Submit Scheduler.trySchedule
  rw [hq, Push_nil]
  simp only [List.length_singleton]
  rw [Scheduler.tryScheduleLoop]
  have hc : PriorityQueue.Len [task] > 0 ∧ (s.runningTasks.length : Int) < s.maxConcurrent :=
    ⟨by simp [PriorityQueue.Len], hslot⟩
  simp only
  rw [if_pos hc, Pop_singleton]
  simp only [alwaysAdmit, Bool.not_true, Bool.false_eq_true, if_false, Scheduler.startTask]
  rw [Scheduler.tryScheduleLoop]
  simp [PriorityQueue.Len]

/-- C10 (priority ordering, as stated): with two free slots and a resource
manager that always admits, submitting a low-priority task and then a
high-priority one starts them in submission order, low first: each `Submit`
runs the admission loop at once. The priorities of the started tasks, `[0, 2]`,
are not strictly decreasing. -/
theorem Submit_admits_in_arrival_order :
    (((NewScheduler 2).submitAll alwaysAdmit
        [mkTask "lo" PriorityLow, mkTask "hi" PriorityHigh]).started.map fun t => t.Priority)
      = [0, 2] ∧
    ¬ (((NewScheduler 2).submitAll alwaysAdmit
        [mkTask "lo" PriorityLow, mkTask "hi" PriorityHigh]).started.map
          fun t => t.Priority).Pairwise (fun a b => a > b) := by
  constructor <;> decide

/-- C10 (priority ordering, amended): for every set of tasks with pairwise
distinct priorities submitted, in any order, while no slot is free, to a
scheduler whose resource manager always admits, the admission loop run once
slots are free (in any state `s` holding the queue those submissions built)
starts the waiting tasks in strictly decreasing priority order: the tasks
started, in order, have strictly decreasing priorities, each of them has a
higher priority than every task left in the queue, started and left tasks
together are the submitted ones, and the loop stops only when the queue is
empty or no slot is free. -/
theorem trySchedule_admits_by_priority (tasks : List Task) (s0 s : Scheduler)
    (hfull : ¬ ((s0.runningTasks.length : Int) < s0.maxConcurrent)) (hempty : s0.queue = [])
    (hq : s.queue = (s0.submitAll alwaysAdmit tasks).queue)
    (hdist : (tasks.map fun t => t.Priority).Nodup) :
    ∃ admitted : List Task,
      (Scheduler.trySchedule alwaysAdmit s).2 = none ∧
      (Scheduler.trySchedule alwaysAdmit s).1.started = s.started ++ admitted ∧
      (admitted ++ (Scheduler.trySchedule alwaysAdmit s).1.queue).Perm tasks ∧
      admitted.Pairwise (fun a b => a.Priority > b.Priority) ∧
      (∀ a ∈ admitted, ∀ x ∈ (Scheduler.trySchedule alwaysAdmit s).1.queue,
        a.Priority > x.Priority) ∧
      ((Scheduler.trySchedule alwaysAdmit s).1.queue = [] ∨
        ¬ (((Scheduler.trySchedule alwaysAdmit s).1.runningTasks.length : Int)
            < (Scheduler.trySchedule alwaysAdmit s).1.maxConcurrent)) := by
  obtain ⟨hqueue, _, _, _⟩ := submitAll_full alwaysAdmit tasks s0 hfull
  rw [hempty] at hqueue
  obtain ⟨hheap, hperm⟩ := foldl_Push_spec tasks [] HeapOrdered_nil
  rw [List.nil_append, ← hqueue, ← hq] at hperm
  rw [← hqueue, ← hq] at hheap
  obtain ⟨adm, h1, h2, h3, _, h5, h6, h7⟩ :=
    tryScheduleLoop_admit (s.queue.length + 1) s hheap (Nat.lt_succ_self _)
  have hall : (adm ++ (Scheduler.trySchedule alwaysAdmit s).1.queue).Perm tasks :=
    h3.trans hperm
  have hnd : ((adm ++ (Scheduler.trySchedule alwaysAdmit s).1.queue).map
      fun t => t.Priority).Nodup := ((hall.map _).nodup_iff).mpr hdist
  rw [List.map_append, List.nodup_append] at hnd
  obtain ⟨hnd1, _, hdisj⟩ := hnd
  refine ⟨adm, h1, h2, hall, ?_, ?_, h7⟩
  · have hne : adm.Pairwise (fun a b => a.Priority ≠ b.Priority) :=
      List.pairwise_map.mp hnd1
    exact (h5.and hne).imp (fun ⟨hle, hn⟩ => lt_of_le_of_ne hle (Ne.symm hn))
  · intro a ha x hx
    have hle := h6 a ha x hx
    have hn : a.Priority ≠ x.Priority := fun heq =>
      hdisj (List.mem_map_of_mem _ ha) (heq ▸ List.mem_map_of_mem _ hx)
    exact lt_of_le_of_ne hle (Ne.symm hn)

theorem trySchedule_admits_by_priority_witness :
    ¬ (((NewScheduler 0).runningTasks.length : Int) < (NewScheduler 0).maxConcurrent) ∧
    (NewScheduler 0).queue = [] ∧
    ([mkTask "lo" PriorityLow, mkTask "hi" PriorityHigh, mkTask "no" PriorityNormal,
        mkTask "cr" PriorityCritical].map fun t => t.Priority).Nodup ∧
    ((Scheduler.trySchedule alwaysAdmit
        { (NewScheduler 0).submitAll alwaysAdmit
            [mkTask "lo" PriorityLow, mkTask "hi" PriorityHigh, mkTask "no" PriorityNormal,
              mkTask "cr" PriorityCritical] with maxConcurrent := 3 }).1.started.map
        fun t => t.ID) = ["cr", "hi", "no"] ∧
    ∃ admitted : List Task,
      (Scheduler.trySchedule alwaysAdmit
        { (NewScheduler 0).submitAll alwaysAdmit
            [mkTask "lo" PriorityLow, mkTask "hi" PriorityHigh, mkTask "no" PriorityNormal,
              mkTask "cr" PriorityCritical] with maxConcurrent := 3 }).1.started
        = [] ++ admitted ∧
      admitted.Pairwise (fun a b => a.Priority > b.Priority) :=
  ⟨by decide, rfl, by decide, by decide,
    (trySchedule_admits_by_priority
      [mkTask "lo" PriorityLow, mkTask "hi" PriorityHigh, mkTask "no" PriorityNormal,
        mkTask "cr" PriorityCritical]
      (NewScheduler 0)
      { (NewScheduler 0).submitAll alwaysAdmit
          [mkTask "lo" PriorityLow, mkTask "hi" PriorityHigh, mkTask "no" PriorityNormal,
            mkTask "cr" PriorityCritical] with maxConcurrent := 3 }
      (by decide) rfl rfl (by decide)).imp fun _ h => ⟨h.2.1, h.2.2.2.1⟩⟩

end Gpu.scheduler

/-! ## Properties of the admission loop on arbitrary queues -/

namespace Gpu.scheduler

theorem down_perm : ∀ (fuel : Nat) (h : PriorityQueue) (i n : Nat),
    (heap.down fuel h i n).Perm h := by
  intro fuel
  induction fuel with
  | zero => intro h i n; exact List.Perm.refl _
  | succ fuel ih =>
    intro h i n
    rw [down_succ]
    by_cases hleaf : 2 * i + 1 ≥ n
    · rw [if_pos hleaf]
    · rw [if_neg hleaf]
      generalize (if 2 * i + 1 + 1 < n ∧ h.Less (2 * i + 1 + 1) (2 * i + 1) = true
                          then 2 * i + 1 + 1 else 2 * i + 1) = j
      by_cases hl : (!h.Less j i) = true
      · rw [if_pos hl]
      · rw [if_neg hl]
        exact (ih _ _ _).trans (Swap_perm h i j)

/-- `heap.down` on the first `n` elements leaves the elements from index `n`
on in place. -/
theorem down_getElem?_ge : ∀ (fuel : Nat) (h : PriorityQueue) (i n : Nat), n ≤ h.length →
    ∀ k, n ≤ k → (heap.down fuel h i n)[k]? = h[k]? := by
  intro fuel
  induction fuel with
  | zero => intro h i n _ k _; rfl
  | succ fuel ih =>
    intro h i n hn k hk
    rw [down_succ]
    by_cases hleaf : 2 * i + 1 ≥ n
    · rw [if_pos hleaf]
    · rw [if_neg hleaf]
      generalize hj : (if 2 * i + 1 + 1 < n ∧ h.Less (2 * i + 1 + 1) (2 * i + 1) = true
                          then 2 * i + 1 + 1 else 2 * i + 1) = j
      have hjn : j < n := by
        rw [← hj]
        split
        · rename_i hc; exact hc.1
        · omega
      by_cases hl : (!h.Less j i) = true
      · rw [if_pos hl]
      · rw [if_neg hl, ih _ _ _ (by rw [Swap_length]; exact hn) k hk,
          getElem?_Swap h i j k (by omega) (by omega), if_neg (by omega), if_neg (by omega)]

/-- `heap.Pop` on any non-empty queue returns the element at index `0` and
leaves exactly the other elements. -/
theorem Pop_head (h : PriorityQueue) (t : Task) (ht : h[0]? = some t) :
    ∃ q, heap.Pop h = (some t, q) ∧ (t :: q).Perm h ∧ q.length + 1 = h.length := by
  have hlen : 0 < h.length := by
    obtain ⟨h1, _⟩ := List.getElem?_eq_some.mp ht
    exact h1
  have hn : h.length - 1 < h.length := by omega
  have h1 := down_length h.length (h.Swap 0 (h.length - 1)) 0 (h.length - 1)
  rw [Swap_length] at h1
  have h2 := down_perm h.length (h.Swap 0 (h.length - 1)) 0 (h.length - 1)
  have h4 := down_getElem?_ge h.length (h.Swap 0 (h.length - 1)) 0 (h.length - 1)
    (by rw [Swap_length]; omega)
  have hlast : (heap.down h.length (h.Swap 0 (h.length - 1)) 0 (h.length - 1)).getLast? = some t := by
    rw [List.getLast?_eq_getElem?, h1, h4 _ (le_refl _), getElem?_Swap h 0 _ _ hlen hn,
      if_pos rfl, ht]
  have hsplit := List.dropLast_append_getLast? t hlast
  refine ⟨(heap.down h.length (h.Swap 0 (h.length - 1)) 0 (h.length - 1)).dropLast, ?_, ?_, ?_⟩
  · unfold heap.Pop PriorityQueue.Pop PriorityQueue.Len
    simp only [hlast]
  · have hp : (t :: (heap.down h.length (h.Swap 0 (h.length - 1)) 0
        (h.length - 1)).dropLast).Perm
        (heap.down h.length (h.Swap 0 (h.length - 1)) 0 (h.length - 1)) := by
      conv => rhs; rw [← hsplit]
      exact (List.perm_append_singleton _ _).symm
    exact hp.trans (h2.trans (Swap_perm h 0 _))
  · rw [List.length_dropLast, h1]; omega

theorem up_perm : ∀ (fuel : Nat) (h : PriorityQueue) (j : Nat), (heap.up fuel h j).Perm h := by
  intro fuel
  induction fuel with
  | zero => intro h j; exact List.Perm.refl _
  | succ fuel ih =>
    intro h j
    rw [up_succ]
    split
    · exact List.Perm.refl _
    · exact (ih _ _).trans (Swap_perm h _ j)

/-- `heap.Push` on any queue adds exactly the pushed task. -/
theorem Push_perm (h : PriorityQueue) (x : Task) : (heap.Push h x).Perm (x :: h) := by
  unfold heap.Push PriorityQueue.Push
  exact (up_perm _ _ _).trans (List.perm_append_singleton x h)

theorem Push_length (h : PriorityQueue) (x : Task) : (heap.Push h x).length = h.length + 1 := by
  rw [(Push_perm h x).length_eq, List.length_cons]

theorem insert_length_le (m : TaskMap) (k : String) (v : Task) :
    (m.insert k v).length ≤ m.length + 1 := by
  unfold TaskMap.insert
  split
  · simp
  · simp

/-- The admission loop when the resource manager refuses the task at the head
of the queue: the task is popped and pushed back, and the loop returns. -/
theorem tryScheduleLoop_refused (c : ResourceRequest → Bool) (fuel : Nat) (s : Scheduler)
    (t : Task) (hhead : s.queue[0]? = some t)
    (hslot : (s.runningTasks.length : Int) < s.maxConcurrent) (href : c t.Resources = false) :
    ∃ q, heap.Pop s.queue = (some t, q) ∧
      Scheduler.tryScheduleLoop c (fuel + 1) s = ({ s with queue := heap.Push q t }, none) := by
  obtain ⟨q, hpop, _, hlen⟩ := Pop_head s.queue t hhead
  refine ⟨q, hpop, ?_⟩
  rw [Scheduler.tryScheduleLoop]
  have hc : s.queue.Len > 0 ∧ (s.runningTasks.length : Int) < s.maxConcurrent := by
    refine ⟨?_, hslot⟩
    simp only [PriorityQueue.Len]
    omega
  rw [if_pos hc, hpop]
  simp only [href, Bool.not_false, if_true]

/-- C11 (head-of-line blocking): for every scheduler state with a non-empty
queue and fewer than `maxConcurrent` running tasks in which the resource
manager refuses the task at the head of the queue (the one `heap.Pop` hands
out, which has the highest priority when the queue is a heap), `trySchedule`
stops without admitting any task: it returns no error, the running set, the
log of started tasks, the metrics and the limit are unchanged, and the queue
holds exactly the same tasks as before. If the queue was a max-heap, the
refused task has the highest priority in it and the queue is a max-heap
again. -/
theorem trySchedule_blocks_on_refused_head (c : ResourceRequest → Bool) (s : Scheduler)
    (t : Task) (hhead : s.queue[0]? = some t)
    (hslot : (s.runningTasks.length : Int) < s.maxConcurrent) (href : c t.Resources = false) :
    (Scheduler.trySchedule c s).2 = none ∧
      (Scheduler.trySchedule c s).1.runningTasks = s.runningTasks ∧
      (Scheduler.trySchedule c s).1.started = s.started ∧
      (Scheduler.trySchedule c s).1.metrics = s.metrics ∧
      (Scheduler.trySchedule c s).1.maxConcurrent = s.maxConcurrent ∧
      (Scheduler.trySchedule c s).1.queue.Perm s.queue ∧
      (HeapOrdered s.queue →
        (∀ x ∈ s.queue, x.Priority ≤ t.Priority) ∧
          HeapOrdered (Scheduler.trySchedule c s).1.queue) := by
  obtain ⟨q, hpop, hrun⟩ := tryScheduleLoop_refused c s.queue.length s t hhead hslot href
  obtain ⟨q2, hpop2, hperm, _⟩ := Pop_head s.queue t hhead
  have hq : q2 = q := by
    rw [hpop] at hpop2
    exact (Prod.mk.inj hpop2).2.symm
  subst hq
  unfold Scheduler.trySchedule
  rw [hrun]
  refine ⟨rfl, rfl, rfl, rfl, rfl, (Push_perm q2 t).trans hperm, ?_⟩
  intro hheap
  have hne : s.queue ≠ [] := by
    intro h0
    rw [h0] at hhead
    simp at hhead
  obtain ⟨t3, q3, hpop3, hhead3, _, hq3, _, _⟩ := Pop_spec s.queue hne hheap
  rw [hpop] at hpop3
  obtain ⟨_, h5⟩ := Prod.mk.inj hpop3
  subst h5
  exact ⟨mem_le_root s.queue hheap t hhead, (Push_spec q2 t hq3).1⟩

theorem trySchedule_blocks_on_refused_head_witness :
    ((NewScheduler 0).submitAll alwaysAdmit
        [mkTask "lo" PriorityLow, mkTask "hi" PriorityHigh]).queue[0]?
      = some (mkTask "hi" PriorityHigh) ∧
    (Scheduler.trySchedule (fun _ => false)
        { (NewScheduler 0).submitAll alwaysAdmit
            [mkTask "lo" PriorityLow, mkTask "hi" PriorityHigh] with maxConcurrent := 2 }).1.started
      = [] ∧
    (Scheduler.trySchedule (fun _ => false)
        { (NewScheduler 0).submitAll alwaysAdmit
            [mkTask "lo" PriorityLow, mkTask "hi" PriorityHigh] with maxConcurrent := 2 }).1.queue.Perm
      ((NewScheduler 0).submitAll alwaysAdmit
        [mkTask "lo" PriorityLow, mkTask "hi" PriorityHigh]).queue :=
  ⟨by decide,
    (trySchedule_blocks_on_refused_head (fun _ => false)
      { (NewScheduler 0).submitAll alwaysAdmit
          [mkTask "lo" PriorityLow, mkTask "hi" PriorityHigh] with maxConcurrent := 2 }
      (mkTask "hi" PriorityHigh) (by decide) (by decide) rfl).2.2.1,
    (trySchedule_blocks_on_refused_head (fun _ => false)
      { (NewScheduler 0).submitAll alwaysAdmit
          [mkTask "lo" PriorityLow, mkTask "hi" PriorityHigh] with maxConcurrent := 2 }
      (mkTask "hi" PriorityHigh) (by decide) (by decide) rfl).2.2.2.2.2.1⟩

/-- The admission loop never lets the running set grow beyond the limit, and
leaves the limit alone. -/
theorem tryScheduleLoop_running_le (c : ResourceRequest → Bool) :
    ∀ (fuel : Nat) (s : Scheduler), (s.runningTasks.length : Int) ≤ s.maxConcurrent →
      (Scheduler.tryScheduleLoop c fuel s).1.maxConcurrent = s.maxConcurrent ∧
        ((Scheduler.tryScheduleLoop c fuel s).1.runningTasks.length : Int) ≤ s.maxConcurrent := by
  intro fuel
  induction fuel with
  | zero => intro s hs; exact ⟨rfl, hs⟩
  | succ fuel ih =>
    intro s hs
    rw [Scheduler.tryScheduleLoop]
    split
    · rename_i hc
      rcases hp : heap.Pop s.queue with ⟨t, q⟩
      cases t with
      | none => exact ⟨rfl, hs⟩
      | some task =>
        simp only
        split
        · exact ⟨rfl, hs⟩
        · simp only [Scheduler.startTask]
          have hins := insert_length_le s.runningTasks task.ID task
          have hlt := hc.2
          exact ih _ (by simp only; omega)
    · exact ⟨rfl, hs⟩

/-- C13 (concurrency bound): for every scheduler state in which the number of
running tasks is at most `maxConcurrent`, whatever the resource manager
answers, the number of tasks in the running set is still at most
`maxConcurrent` after `trySchedule` and, for every submitted task, after
`Submit`; neither changes `maxConcurrent`. -/
theorem running_set_stays_bounded (c : ResourceRequest → Bool) (s : Scheduler) (task : Task)
    (h : (s.runningTasks.length : Int) ≤ s.maxConcurrent) :
    ((Scheduler.Submit c s task).1.runningTasks.length : Int)
        ≤ (Scheduler.Submit c s task).1.maxConcurrent ∧
      (Scheduler.Submit c s task).1.maxConcurrent = s.maxConcurrent ∧
      ((Scheduler.trySchedule c s).1.runningTasks.length : Int)
        ≤ (Scheduler.trySchedule c s).1.maxConcurrent ∧
      (Scheduler.trySchedule c s).1.maxConcurrent = s.maxConcurrent := by
  have h1 := tryScheduleLoop_running_le c (s.queue.length + 1) s h
  have h2 := tryScheduleLoop_running_le c ((heap.Push s.queue task).length + 1)
    { s with
      queue := heap.Push s.queue task,
      metrics := { s.metrics with QueueLength := s.metrics.QueueLength + 1 } } h
  unfold Scheduler.Submit Scheduler.trySchedule
  refine ⟨?_, h2.1, ?_, h1.1⟩
  · rw [h2.1]; exact h2.2
  · rw [h1.1]; exact h1.2

theorem running_set_stays_bounded_witness :
    (((NewScheduler 2).submitAll alwaysAdmit
        [mkTask "a" PriorityLow, mkTask "b" PriorityHigh]).runningTasks.length : Int)
      ≤ ((NewScheduler 2).submitAll alwaysAdmit
        [mkTask "a" PriorityLow, mkTask "b" PriorityHigh]).maxConcurrent ∧
    ((Scheduler.Submit alwaysAdmit
        ((NewScheduler 2).submitAll alwaysAdmit [mkTask "a" PriorityLow, mkTask "b" PriorityHigh])
        (mkTask "c" PriorityCritical)).1.runningTasks.length : Int)
      ≤ (Scheduler.Submit alwaysAdmit
        ((NewScheduler 2).submitAll alwaysAdmit [mkTask "a" PriorityLow, mkTask "b" PriorityHigh])
        (mkTask "c" PriorityCritical)).1.maxConcurrent ∧
    (Scheduler.Submit alwaysAdmit
        ((NewScheduler 2).submitAll alwaysAdmit [mkTask "a" PriorityLow, mkTask "b" PriorityHigh])
        (mkTask "c" PriorityCritical)).1.runningTasks.length = 2 :=
  ⟨by decide,
    (running_set_stays_bounded alwaysAdmit
      ((NewScheduler 2).submitAll alwaysAdmit [mkTask "a" PriorityLow, mkTask "b" PriorityHigh])
      (mkTask "c" PriorityCritical) (by decide)).1,
    by decide⟩

theorem find_insert (m : TaskMap) (k : String) (v : Task) :
    (m.insert k v).find k = some v := by
  unfold TaskMap.insert TaskMap.find
  split
  · rename_i hany
    have key : ∀ l : TaskMap, l.any (fun p => p.1 == k) = true →
        (l.map (fun p => if p.1 = k then (k, v) else p)).find? (fun p => p.1 == k)
          = some (k, v) := by
      intro l
      induction l with
      | nil => intro h; simp at h
      | cons p l ih =>
        intro h
        by_cases hp : p.1 = k
        · simp [hp]
        · have hl : l.any (fun p => p.1 == k) = true := by
            simpa [hp] using h
          simp only [List.map_cons, if_neg hp]
          rw [List.find?_cons_of_neg _ (by simpa using hp)]
          exact ih hl
    rw [key m hany]
    rfl
  · rename_i hany
    have key : ∀ l : TaskMap, ¬ l.any (fun p => p.1 == k) = true →
        (l ++ [(k, v)]).find? (fun p => p.1 == k) = some (k, v) := by
      intro l
      induction l with
      | nil => intro _; simp
      | cons p l ih =>
        intro h
        have hp : ¬ p.1 = k := by
          intro hp
          exact h (by simp [hp])
        have hl : ¬ l.any (fun p => p.1 == k) = true := by
          intro hl
          exact h (by simp [hl])
        rw [List.cons_append, List.find?_cons_of_neg _ (by simpa using hp)]
        exact ih hl
    rw [key m hany]
    rfl

/-- `startTask` records the task in the running set under its identifier,
exactly as it was handed over: no field of the task, its status included, is
changed. -/
theorem startTask_records (s : Scheduler) (task : Task) :
    (s.startTask task).2 = none ∧ (s.startTask task).1.runningTasks.find task.ID = some task :=
  ⟨rfl, find_insert s.runningTasks task.ID task⟩

/-- C12 (transition to Running): a pending task submitted to a new scheduler
with a free slot and an admitting resource manager is admitted at once and
recorded in the running set under its ID, but the recorded task still has
status `TaskPending`: nothing sets `TaskRunning`. -/
theorem admitted_task_stays_pending :
    ((NewScheduler 1).Submit alwaysAdmit (mkTask "t" PriorityNormal)).1.started
      = [mkTask "t" PriorityNormal] ∧
    (((NewScheduler 1).Submit alwaysAdmit (mkTask "t" PriorityNormal)).1.runningTasks.find "t").map
        (fun t => t.Status) = some TaskStatus.TaskPending ∧
    (((NewScheduler 1).Submit alwaysAdmit (mkTask "t" PriorityNormal)).1.runningTasks.find "t").map
        (fun t => t.Status) ≠ some TaskStatus.TaskRunning := by
  refine ⟨by decide, by decide, by decide⟩

/-- What the admission loop does to the counters: `QueueLength` is not
touched, `RunningTasks` grows by the number of tasks started, and every task
leaving the queue is started. -/
theorem tryScheduleLoop_metrics (c : ResourceRequest → Bool) :
    ∀ (fuel : Nat) (s : Scheduler),
      (Scheduler.tryScheduleLoop c fuel s).1.metrics.QueueLength = s.metrics.QueueLength ∧
      (Scheduler.tryScheduleLoop c fuel s).1.metrics.RunningTasks
          - ((Scheduler.tryScheduleLoop c fuel s).1.started.length : Int)
        = s.metrics.RunningTasks - (s.started.length : Int) ∧
      (Scheduler.tryScheduleLoop c fuel s).1.queue.length
          + (Scheduler.tryScheduleLoop c fuel s).1.started.length
        = s.queue.length + s.started.length := by
  intro fuel
  induction fuel with
  | zero => intro s; exact ⟨rfl, rfl, rfl⟩
  | succ fuel ih =>
    intro s
    rw [Scheduler.tryScheduleLoop]
    split
    · rename_i hc
      have hlen := Pop_length s.queue
      have hpos : 0 < s.queue.length := hc.1
      rcases hp : heap.Pop s.queue with ⟨t, q⟩
      rw [hp] at hlen
      simp only at hlen
      cases t with
      | none => exact ⟨rfl, rfl, rfl⟩
      | some task =>
        simp only
        split
        · refine ⟨rfl, rfl, ?_⟩
          simp only [Push_length]
          omega
        · simp only [Scheduler.startTask]
          obtain ⟨h1, h2, h3⟩ := ih
            { s with
              queue := q,
              runningTasks := s.runningTasks.insert task.ID task,
              metrics := { s.metrics with RunningTasks := s.metrics.RunningTasks + 1 },
              started := s.started ++ [task] }
          refine ⟨h1, ?_, ?_⟩
          · rw [h2]
            simp only [List.length_append, List.length_singleton]
            push_cast
            omega
          · rw [h3]
            simp only [List.length_append, List.length_singleton]
            omega
    · exact ⟨rfl, rfl, rfl⟩

/-- After any sequence of `Submit` calls on a new scheduler, `QueueLength` is
the number of tasks submitted so far, that is the number waiting plus the
number started, and `RunningTasks` is the number of tasks started. -/
theorem submitAll_metrics (c : ResourceRequest → Bool) (tasks : List Task) :
    ∀ s : Scheduler,
      ((s.submitAll c tasks).metrics.QueueLength
          - (((s.submitAll c tasks).queue.length + (s.submitAll c tasks).started.length : Nat) : Int)
        = s.metrics.QueueLength - ((s.queue.length + s.started.length : Nat) : Int)) ∧
      (s.submitAll c tasks).metrics.QueueLength = s.metrics.QueueLength + (tasks.length : Int) ∧
      ((s.submitAll c tasks).metrics.RunningTasks - ((s.submitAll c tasks).started.length : Int)
        = s.metrics.RunningTasks - (s.started.length : Int)) := by
  induction tasks with
  | nil => intro s; exact ⟨rfl, by simp [Scheduler.submitAll], rfl⟩
  | cons t ts ih =>
    intro s
    have hs : s.submitAll c (t :: ts) = (Scheduler.Submit c s t).1.submitAll c ts := rfl
    obtain ⟨h1, h2, h3⟩ := ih (Scheduler.Submit c s t).1
    obtain ⟨g1, g2, g3⟩ := tryScheduleLoop_metrics c ((heap.Push s.queue t).length + 1)
      { s with
        queue := heap.Push s.queue t,
        metrics := { s.metrics with QueueLength := s.metrics.QueueLength + 1 } }
    have e : Scheduler.Submit c s t = Scheduler.tryScheduleLoop c ((heap.Push s.queue t).length + 1)
      { s with
        queue := heap.Push s.queue t,
        metrics := { s.metrics with QueueLength := s.metrics.QueueLength + 1 } } := rfl
    rw [← e] at g1 g2 g3
    simp only [Push_length] at g3
    simp only at g1 g2
    rw [hs]
    refine ⟨?_, ?_, ?_⟩
    · rw [h1, g1, g3]
      push_cast
      omega
    · rw [h2, g1]
      simp only [List.length_cons]
      push_cast
      omega
    · rw [h3, g2]

/-- C18 (queue-length metric): on a new scheduler with one slot and an
admitting resource manager, `Submit` of one task starts it at once; the queue
is then empty, yet `QueueLength` is `1`. `RunningTasks` is `1`, the number of
tasks admitted. -/
theorem QueueLength_counts_started_tasks :
    ((NewScheduler 1).Submit alwaysAdmit (mkTask "t" PriorityNormal)).1.queue = [] ∧
    ((NewScheduler 1).Submit alwaysAdmit (mkTask "t" PriorityNormal)).1.metrics.QueueLength = 1 ∧
    ((NewScheduler 1).Submit alwaysAdmit (mkTask "t" PriorityNormal)).1.started.length = 1 ∧
    ((NewScheduler 1).Submit alwaysAdmit (mkTask "t" PriorityNormal)).1.metrics.RunningTasks = 1 := by
  refine ⟨by decide, by decide, by decide, by decide⟩

theorem heapRun_ordered (ops : List HeapOp) :
    ∀ h : PriorityQueue, HeapOrdered h → HeapOrdered (heapRun h ops) := by
  induction ops with
  | nil => intro h hh; exact hh
  | cons op ops ih =>
    intro h hh
    refine ih (HeapOp.apply h op) ?_
    cases op with
    | push task => exact (Push_spec h task hh).1
    | pop =>
      by_cases hne : h = []
      · subst hne
        exact HeapOrdered_nil
      · obtain ⟨t, q, hpop, _, _, hq, _, _⟩ := Pop_spec h hne hh
        show HeapOrdered (heap.Pop h).2
        rw [hpop]
        exact hq

/-- C15 (heap order): for every priority queue built from the empty queue by
any sequence of `heap.Push` and `heap.Pop` operations, `heap.Pop` on a
non-empty queue returns a task whose priority is greater than or equal to the
priority of every task remaining in the queue, and removes exactly that one
task: the returned task together with the remaining queue are the tasks of
the queue before. -/
theorem Pop_returns_highest_priority (ops : List HeapOp) (hne : heapRun [] ops ≠ []) :
    ∃ (t : Task) (rest : PriorityQueue),
      heap.Pop (heapRun [] ops) = (some t, rest) ∧
      (∀ x ∈ rest, x.Priority ≤ t.Priority) ∧
      (t :: rest).Perm (heapRun [] ops) ∧
      rest.length + 1 = (heapRun [] ops).length := by
  obtain ⟨t, q, hpop, _, hperm, _, hlen, hmax⟩ :=
    Pop_spec (heapRun [] ops) hne (heapRun_ordered ops [] HeapOrdered_nil)
  exact ⟨t, q, hpop, hmax, hperm, hlen⟩

theorem Pop_returns_highest_priority_witness :
    heapRun []
        [HeapOp.push (mkTask "lo" PriorityLow), HeapOp.push (mkTask "cr" PriorityCritical),
          HeapOp.push (mkTask "hi" PriorityHigh), HeapOp.pop,
          HeapOp.push (mkTask "no" PriorityNormal)] ≠ [] ∧
    (heap.Pop (heapRun []
        [HeapOp.push (mkTask "lo" PriorityLow), HeapOp.push (mkTask "cr" PriorityCritical),
          HeapOp.push (mkTask "hi" PriorityHigh), HeapOp.pop,
          HeapOp.push (mkTask "no" PriorityNormal)])).1 = some (mkTask "hi" PriorityHigh) ∧
    ∃ (t : Task) (rest : PriorityQueue),
      heap.Pop (heapRun []
        [HeapOp.push (mkTask "lo" PriorityLow), HeapOp.push (mkTask "cr" PriorityCritical),
          HeapOp.push (mkTask "hi" PriorityHigh), HeapOp.pop,
          HeapOp.push (mkTask "no" PriorityNormal)]) = (some t, rest) ∧
      (∀ x ∈ rest, x.Priority ≤ t.Priority) ∧
      (t :: rest).Perm (heapRun []
        [HeapOp.push (mkTask "lo" PriorityLow), HeapOp.push (mkTask "cr" PriorityCritical),
          HeapOp.push (mkTask "hi" PriorityHigh), HeapOp.pop,
          HeapOp.push (mkTask "no" PriorityNormal)]) ∧
      rest.length + 1 = (heapRun []
        [HeapOp.push (mkTask "lo" PriorityLow), HeapOp.push (mkTask "cr" PriorityCritical),
          HeapOp.push (mkTask "hi" PriorityHigh), HeapOp.pop,
          HeapOp.push (mkTask "no" PriorityNormal)]).length :=
  ⟨by decide, by decide,
    Pop_returns_highest_priority
      [HeapOp.push (mkTask "lo" PriorityLow), HeapOp.push (mkTask "cr" PriorityCritical),
        HeapOp.push (mkTask "hi" PriorityHigh), HeapOp.pop,
        HeapOp.push (mkTask "no" PriorityNormal)] (by decide)⟩

end Gpu.scheduler

/-! ## Properties of the recovery strategies and the retry counter -/

namespace Gpu.recovery

/-- `Recover` of an OOM strategy whose tuner is set. -/
theorem Recover_with_tuner (s : OOMRecoveryStrategy) (tuner : AutoTuner)
    (ht : s.autoTuner = some tuner) (calls : List Call) (failure : Failure) :
    s.Recover calls failure =
      match s.ClearCache calls with
      | some err => (calls ++ [Call.ClearCache], Outcome.returned (some err))
      | none =>
        (calls ++ [Call.ClearCache, Call.AdjustBatchSize 70, Call.CompressMemory],
          Outcome.returned
            (s.CompressMemory (calls ++ [Call.ClearCache, Call.AdjustBatchSize 70]))) := by
  unfold OOMRecoveryStrategy.Recover
  rw [ht]
  cases s.ClearCache calls with
  | some err => rfl
  | none => simp

/-- C14 (OOM strategy, as stated): with a tuner whose `AdjustBatchSize` fails
and a resource manager whose `ClearCache` and `CompressMemory` succeed,
`Recover` returns no error although the second step failed: the call at
`recovery.go:70` drops what `AdjustBatchSize` returns. So "no error" is not
equivalent to "every step succeeded". -/
theorem Recover_hides_failed_batch_reduction :
    (OOMRecoveryStrategy.Recover
        { ClearCache := fun _ => none, CompressMemory := fun _ => none,
          autoTuner := some (failingTuner 5) } [] oomFailure)
      = ([Call.ClearCache, Call.AdjustBatchSize 70, Call.CompressMemory],
          Outcome.returned none) ∧
    (failingTuner 5).AdjustBatchSize [Call.ClearCache] = some (Error.collaborator 5) ∧
    ¬ ((OOMRecoveryStrategy.Recover
          { ClearCache := fun _ => none, CompressMemory := fun _ => none,
            autoTuner := some (failingTuner 5) } [] oomFailure).2 = Outcome.returned none ↔
        OOMRecoveryStrategy.AllStepsSucceed
          { ClearCache := fun _ => none, CompressMemory := fun _ => none,
            autoTuner := some (failingTuner 5) } (failingTuner 5) []) := by
  refine ⟨by decide, by decide, ?_⟩
  intro h
  have h1 := h.mp (by decide)
  have h2 := h1.2.1
  revert h2
  decide

/-- C14 (OOM strategy, amended): for every failure (and every log of earlier
calls), `Recover` of an OOM strategy whose tuner is set calls `ClearCache`
first; if that fails, its error is returned and neither `AdjustBatchSize` nor
`CompressMemory` is called; otherwise it calls `AdjustBatchSize(0.7)`, then
`CompressMemory`, and returns exactly what `CompressMemory` returns, whatever
`AdjustBatchSize` returned. Hence `Recover` returns no error if and only if
`ClearCache` and `CompressMemory` both succeeded. -/
theorem OOM_Recover_steps (s : OOMRecoveryStrategy) (tuner : AutoTuner)
    (ht : s.autoTuner = some tuner) (calls : List Call) (failure : Failure) :
    (∀ err, s.ClearCache calls = some err →
      s.Recover calls failure
        = (calls ++ [Call.ClearCache], Outcome.returned (some err))) ∧
    (s.ClearCache calls = none →
      s.Recover calls failure
        = (calls ++ [Call.ClearCache, Call.AdjustBatchSize 70, Call.CompressMemory],
            Outcome.returned
              (s.CompressMemory (calls ++ [Call.ClearCache, Call.AdjustBatchSize 70])))) ∧
    ((s.Recover calls failure).2 = Outcome.returned none ↔
      s.ClearCache calls = none ∧
        s.CompressMemory (calls ++ [Call.ClearCache, Call.AdjustBatchSize 70]) = none) := by
  rw [Recover_with_tuner s tuner ht calls failure]
  cases h : s.ClearCache calls with
  | some err =>
    refine ⟨?_, ?_, ?_⟩
    · intro e he
      cases he
      rfl
    · intro he
      cases he
    · simp
  | none =>
    refine ⟨?_, ?_, ?_⟩
    · intro e he
      cases he
    · intro _
      rfl
    · simp

theorem OOM_Recover_steps_witness :
    (({ ClearCache := fun _ => none,
        CompressMemory := fun _ => some (Error.collaborator 9),
        autoTuner := some quietTuner } : OOMRecoveryStrategy).autoTuner = some quietTuner) ∧
    (OOMRecoveryStrategy.Recover
        { ClearCache := fun _ => none,
          CompressMemory := fun _ => some (Error.collaborator 9),
          autoTuner := some quietTuner } [] oomFailure)
      = ([] ++ [Call.ClearCache, Call.AdjustBatchSize 70, Call.CompressMemory],
          Outcome.returned (some (Error.collaborator 9))) :=
  ⟨rfl,
    (OOM_Recover_steps
      { ClearCache := fun _ => none,
        CompressMemory := fun _ => some (Error.collaborator 9),
        autoTuner := some quietTuner } quietTuner rfl [] oomFailure).2.1 rfl⟩

/-- The OOM strategy on a failure whose cache-clearing step fails with
`collaborator 3`, on one whose steps all succeed, and with a `nil` tuner. -/
theorem OOM_Recover_examples :
    (OOMRecoveryStrategy.Recover
        { ClearCache := fun _ => some (Error.collaborator 3), CompressMemory := fun _ => none,
          autoTuner := some quietTuner } [] oomFailure)
      = ([Call.ClearCache], Outcome.returned (some (Error.collaborator 3))) ∧
    (OOMRecoveryStrategy.Recover
        { ClearCache := fun _ => none, CompressMemory := fun _ => none,
          autoTuner := some quietTuner } [] oomFailure)
      = ([Call.ClearCache, Call.AdjustBatchSize 70, Call.CompressMemory],
          Outcome.returned none) ∧
    (OOMRecoveryStrategy.Recover
        { ClearCache := fun _ => none, CompressMemory := fun _ => none, autoTuner := none }
        [] oomFailure)
      = ([Call.ClearCache], Outcome.panicked) ∧
    OOMRecoveryStrategy.CanHandle
        { ClearCache := fun _ => none, CompressMemory := fun _ => none,
          autoTuner := some quietTuner } oomFailure = true := by
  refine ⟨by decide, by decide, by decide, by decide⟩

end Gpu.recovery

namespace Gpu

theorem wrapInt_eq (x : Int) (h1 : -(2 ^ 63) ≤ x) (h2 : x < 2 ^ 63) : wrapInt x = x := by
  unfold wrapInt IntRange
  have h : (x + 2 ^ 63) % (2 ^ 64 : Int) = x + 2 ^ 63 :=
    Int.emod_eq_of_lt (by omega) (by omega)
  rw [h]
  omega

/-- A call of `HandleError` while retries are left. -/
theorem HandleError_retry (er : ErrorRecovery) (err : String)
    (h : er.CurrentRetry < er.MaxRetries) (h0 : 0 ≤ er.CurrentRetry)
    (hmax : er.MaxRetries < 2 ^ 63) :
    er.HandleError err
      = ({ er with LastError := some err, CurrentRetry := er.CurrentRetry + 1 }, none) := by
  unfold ErrorRecovery.HandleError
  simp only
  rw [if_neg (by omega), wrapInt_eq _ (by omega) (by omega)]

/-- A call of `HandleError` once the retries are used up. -/
theorem HandleError_exhausted (er : ErrorRecovery) (err : String)
    (h : er.CurrentRetry ≥ er.MaxRetries) :
    er.HandleError err
      = ({ er with LastError := some err },
          if er.FallbackToCPU then none else some ("max retries exceeded: " ++ err)) := by
  unfold ErrorRecovery.HandleError ErrorRecovery.switchToCPU
  simp only
  rw [if_pos h]
  split <;> rfl

/-- The counter after a number of calls: one more for each call, up to
`MaxRetries`. -/
theorem handleAll_count (errs : List String) :
    ∀ er : ErrorRecovery, 0 ≤ er.CurrentRetry → er.CurrentRetry ≤ er.MaxRetries →
      er.MaxRetries < 2 ^ 63 →
      (er.handleAll errs).CurrentRetry = min (er.CurrentRetry + errs.length) er.MaxRetries ∧
        (er.handleAll errs).MaxRetries = er.MaxRetries ∧
        (er.handleAll errs).FallbackToCPU = er.FallbackToCPU := by
  induction errs with
  | nil =>
    intro er _ h2 _
    refine ⟨?_, rfl, rfl⟩
    show er.CurrentRetry = min (er.CurrentRetry + ((0 : Nat) : Int)) er.MaxRetries
    simp only [Nat.cast_zero, add_zero]
    exact (min_eq_left h2).symm
  | cons e es ih =>
    intro er h1 h2 h3
    have hs : er.handleAll (e :: es) = (er.HandleError e).1.handleAll es := rfl
    rw [hs]
    by_cases hlt : er.CurrentRetry < er.MaxRetries
    · rw [HandleError_retry er e hlt h1 h3]
      obtain ⟨g1, g2, g3⟩ := ih { er with LastError := some e, CurrentRetry := er.CurrentRetry + 1 }
        (by simp only; omega) (by simp only; omega) h3
      refine ⟨?_, g2, g3⟩
      rw [g1]
      simp only [List.length_cons]
      push_cast
      congr 1
      omega
    · rw [HandleError_exhausted er e (by omega)]
      obtain ⟨g1, g2, g3⟩ := ih { er with LastError := some e } h1 h2 h3
      refine ⟨?_, g2, g3⟩
      rw [g1]
      simp only [List.length_cons]
      push_cast
      have heq : er.CurrentRetry = er.MaxRetries := by omega
      rw [min_eq_right (by omega), min_eq_right (by omega)]

/-- C16 (bounded retries): for an `ErrorRecovery` with `CurrentRetry = 0` and
`MaxRetries = n ≥ 0`, consider the call of `HandleError` made after
`errs.length` earlier calls. If it is one of the first `n` calls, it returns
no error and increases `CurrentRetry` by one, to the number of calls made.
Every later call leaves `CurrentRetry` equal to `n` and returns no error when
`FallbackToCPU` is set and a "max retries exceeded" error when it is not. The
counter never exceeds `MaxRetries`. -/
theorem HandleError_bounded_retries (n : Nat) (hn : (n : Int) < 2 ^ 63) (er : ErrorRecovery)
    (h0 : er.CurrentRetry = 0) (hm : er.MaxRetries = n) (errs : List String) (err : String) :
    (errs.length < n →
      (er.handleAll errs).CurrentRetry = errs.length ∧
        ((er.handleAll errs).HandleError err).2 = none ∧
        ((er.handleAll errs).HandleError err).1.CurrentRetry = errs.length + 1) ∧
    (n ≤ errs.length →
      (er.handleAll errs).CurrentRetry = n ∧
        ((er.handleAll errs).HandleError err).1.CurrentRetry = n ∧
        ((er.handleAll errs).HandleError err).2
          = if er.FallbackToCPU then none else some ("max retries exceeded: " ++ err)) ∧
    ((er.handleAll errs).HandleError err).1.CurrentRetry ≤ er.MaxRetries := by
  obtain ⟨g1, g2, g3⟩ := handleAll_count errs er (by omega) (by omega) (by omega)
  rw [h0, hm, zero_add] at g1
  rw [hm] at g2
  have key1 : errs.length < n →
      (er.handleAll errs).CurrentRetry = errs.length ∧
        (er.handleAll errs).HandleError err
          = ({ er.handleAll errs with
                LastError := some err, CurrentRetry := (er.handleAll errs).CurrentRetry + 1 },
              none) := by
    intro hlt
    have hc : (er.handleAll errs).CurrentRetry = errs.length := by
      rw [g1]; exact min_eq_left (by omega)
    exact ⟨hc, HandleError_retry _ err (by rw [hc, g2]; omega) (by rw [hc]; omega)
      (by rw [g2]; omega)⟩
  have key2 : n ≤ errs.length →
      (er.handleAll errs).CurrentRetry = n ∧
        (er.handleAll errs).HandleError err
          = ({ er.handleAll errs with LastError := some err },
              if (er.handleAll errs).FallbackToCPU then none
              else some ("max retries exceeded: " ++ err)) := by
    intro hge
    have hc : (er.handleAll errs).CurrentRetry = n := by
      rw [g1]; exact min_eq_right (by omega)
    exact ⟨hc, HandleError_exhausted _ err (by rw [hc, g2])⟩
  refine ⟨?_, ?_, ?_⟩
  · intro hlt
    obtain ⟨hc, he⟩ := key1 hlt
    rw [he]
    exact ⟨hc, rfl, by simp only [hc]⟩
  · intro hge
    obtain ⟨hc, he⟩ := key2 hge
    rw [he, g3]
    exact ⟨hc, hc, rfl⟩
  · rw [hm]
    by_cases hlt : errs.length < n
    · obtain ⟨hc, he⟩ := key1 hlt
      rw [he]
      simp only [hc]
      omega
    · obtain ⟨hc, he⟩ := key2 (by omega)
      rw [he]
      simp only [hc]
      exact le_refl _

theorem HandleError_bounded_retries_witness :
    ((2 : Nat) : Int) < 2 ^ 63 ∧ (NewErrorRecovery 2 100 false).CurrentRetry = 0 ∧
    (NewErrorRecovery 2 100 false).MaxRetries = (2 : Nat) ∧
    (((NewErrorRecovery 2 100 false).handleAll ["e1"]).HandleError "e2").2 = none ∧
    (((NewErrorRecovery 2 100 false).handleAll ["e1", "e2"]).HandleError "e3").2
      = some "max retries exceeded: e3" ∧
    (((NewErrorRecovery 2 100 true).handleAll ["e1", "e2"]).HandleError "e3").2 = none ∧
    (((NewErrorRecovery 2 100 false).handleAll ["e1", "e2"]).HandleError "e3").1.CurrentRetry
      ≤ (NewErrorRecovery 2 100 false).MaxRetries :=
  ⟨by decide, rfl, rfl, by decide, by decide, by decide,
    (HandleError_bounded_retries 2 (by decide) (NewErrorRecovery 2 100 false) rfl rfl
      ["e1", "e2"] "e3").2.2⟩

end Gpu

/-! ## Lookup map and recency list of the cache -/

namespace Gpu

/-- C17 (map and list consistency): with capacity 25, `Add("a", 1, 10)`
followed by `Add("a", 2, 10)` leaves two list entries with key `"a"`; the
next `Add("b", 3, 10)` evicts the older one and deletes `lookup["a"]`, which
pointed at the newer one. The entry `("a", 2)` is then still stored in the
list, but the key is not in the lookup map and `Get("a")` misses. -/
theorem readded_key_is_lost_on_eviction :
    ((CacheManager.empty 25).run [CacheOp.add "a" 1 10, CacheOp.add "a" 2 10]).cache
      = [⟨1, ⟨"a", 10, 2⟩⟩, ⟨0, ⟨"a", 10, 1⟩⟩] ∧
    ((CacheManager.empty 25).run
        [CacheOp.add "a" 1 10, CacheOp.add "a" 2 10, CacheOp.add "b" 3 10]).cache
      = [⟨2, ⟨"b", 10, 3⟩⟩, ⟨1, ⟨"a", 10, 2⟩⟩] ∧
    ((CacheManager.empty 25).run
        [CacheOp.add "a" 1 10, CacheOp.add "a" 2 10, CacheOp.add "b" 3 10]).lookup "a" = none ∧
    (((CacheManager.empty 25).run
        [CacheOp.add "a" 1 10, CacheOp.add "a" 2 10, CacheOp.add "b" 3 10]).Get "a").2
      = (none, false) := by
  refine ⟨by decide, by decide, by decide, by decide⟩

theorem Exact_empty (cap : Nat) : (CacheManager.empty cap).Exact :=
  ⟨Linked_empty cap, by simp [CacheManager.empty]⟩

theorem removeOldest_Exact (cm : CacheManager) (h : cm.Exact) :
    cm.removeOldest.1.Exact ∧ ∀ k, cm.lookup k = none → cm.removeOldest.1.lookup k = none := by
  have hl := (removeOldest_Linked cm h.1).1
  refine ⟨⟨hl, ?_⟩, ?_⟩
  · unfold CacheManager.removeOldest
    cases hb : Back cm.cache with
    | none => exact h.2
    | some x =>
      obtain ⟨d, hx⟩ := List.getLast?_eq_some_iff.mp hb
      have hn := h.1.nodup
      rw [hx, List.map_append, List.nodup_append] at hn
      have hnot : x ∉ d := fun hmem => hn.2.2 (List.mem_map_of_mem _ hmem) (by simp)
      have hrem : Remove cm.cache x = d := by
        rw [hx]; unfold Remove
        rw [List.erase_append_right _ hnot]; simp
      simp only [hrem]
      intro e he
      have hec : e ∈ cm.cache := by rw [hx]; exact List.mem_append_left _ he
      have hxc : x ∈ cm.cache := by rw [hx]; simp
      have hne : e.Value.key ≠ x.Value.key := by
        intro heq
        have h1 := h.2 e hec
        have h2 := h.2 x hxc
        rw [heq, h2] at h1
        cases h1
        exact hnot he
      rw [if_neg hne]
      exact h.2 e hec
  · intro k hk
    unfold CacheManager.removeOldest
    cases hb : Back cm.cache with
    | none => exact hk
    | some x =>
      simp only
      split
      · rfl
      · exact hk

theorem evictLoop_Exact (sizeBytes : Nat) :
    ∀ (fuel : Nat) (cm : CacheManager), cm.Exact →
      (CacheManager.evictLoop sizeBytes fuel cm).1.Exact ∧
        ∀ k, cm.lookup k = none → (CacheManager.evictLoop sizeBytes fuel cm).1.lookup k = none := by
  intro fuel
  induction fuel with
  | zero => intro cm h; exact ⟨h, fun _ hk => hk⟩
  | succ fuel ih =>
    intro cm h
    unfold CacheManager.evictLoop
    obtain ⟨h1, h2⟩ := removeOldest_Exact cm h
    split
    · simp only
      split
      · obtain ⟨h3, h4⟩ := ih _ h1
        exact ⟨h3, fun k hk => h4 k (h2 k hk)⟩
      · exact ⟨h1, h2⟩
    · exact ⟨h, fun _ hk => hk⟩

theorem Add_Exact (cm : CacheManager) (h : cm.Exact) (key : String) (data : Payload)
    (sizeBytes : Nat) (hfresh : cm.lookup key = none) :
    (cm.Add key data sizeBytes).1.Exact := by
  refine ⟨Add_Linked cm h.1 key data sizeBytes, ?_⟩
  unfold CacheManager.Add
  obtain ⟨h1, h2⟩ := evictLoop_Exact sizeBytes (cm.cache.length + 1) cm h
  split
  · exact h.2
  · simp only
    split
    · intro e he
      simp only [PushFront] at he
      rcases List.mem_cons.mp he with h3 | h3
      · subst h3
        simp
      · have h4 := h1.2 e h3
        have hne : e.Value.key ≠ key := by
          intro heq
          rw [heq, h2 key hfresh] at h4
          cases h4
        simp only [if_neg hne]
        exact h4
    · exact h1.2

theorem Get_Exact (cm : CacheManager) (h : cm.Exact) (key : String) :
    (cm.Get key).1.Exact := by
  refine ⟨Get_Linked cm h.1 key, ?_⟩
  unfold CacheManager.Get
  split
  · rename_i element _
    intro e he
    exact h.2 e ((MoveToFront_perm cm.cache element).mem_iff.mp he)
  · exact h.2

/-- As long as no `Add` reuses a key held by the lookup map, map and list stay
in agreement. -/
theorem run_Exact (ops : List CacheOp) :
    ∀ cm : CacheManager, cm.Exact → FreshKeys cm ops → (cm.run ops).Exact := by
  induction ops with
  | nil => intro cm h _; exact h
  | cons op ops ih =>
    intro cm h hf
    cases op with
    | add key data sizeBytes =>
      exact ih _ (Add_Exact cm h key data sizeBytes hf.1) hf.2
    | get key =>
      exact ih _ (Get_Exact cm h key) hf

/-- In a state where map and list agree, each key occurs in at most one list
entry, and `Get` hits exactly the keys carried by a stored entry. -/
theorem Exact_consistent (cm : CacheManager) (h : cm.Exact) :
    (cm.cache.map fun e => e.Value.key).Nodup ∧
      ∀ k, (cm.Get k).2.2 = true ↔ ∃ e ∈ cm.cache, e.Value.key = k := by
  constructor
  · rw [List.nodup_map_iff_inj_on (List.Nodup.of_map _ h.1.nodup)]
    intro a ha b hb hab
    have h1 := h.2 a ha
    have h2 := h.2 b hb
    rw [hab, h2] at h1
    cases h1
    rfl
  · intro k
    unfold CacheManager.Get
    cases hl : cm.lookup k with
    | none =>
      simp only [Bool.false_eq_true, false_iff]
      rintro ⟨e, he, hk⟩
      have := h.2 e he
      rw [hk, hl] at this
      cases this
    | some e =>
      simp only [true_iff]
      exact ⟨e, (h.1.points k e hl).1, (h.1.points k e hl).2⟩

end Gpu
